import Mathlib

/-!
Verification of the frame-graph scheduling core of a Vulkan renderer:
the `BarrierBatcher` hazard state machine, the `ImageCache` pooled
allocator, and the `RenderGraph` orchestrator (dependency compilation via
Kahn's algorithm, transient allocation, barrier-batched execution).

The embedding follows the C++ sources
`src/RenderGraph/BarrierBatcher.cpp`, `src/ImageCache/ImageCache.cpp`
and `src/RenderGraph/RenderGraph.cpp`.  Machine integers are modelled as
`Nat` with explicit `% 2 ^ 32` where 32-bit wrap-around matters; Vulkan
handles are `Option Nat` (`none` = `VK_NULL_HANDLE`); fallible
operations return `Option`.
-/

namespace VulkanRG

/-- `uint32_t` subtraction with wrap-around, as C++ computes
`currentFrame - lastUsedFrame` on unsigned 32-bit operands. -/
def usub32 (a b : Nat) : Nat := (a % 2 ^ 32 + (2 ^ 32 - b % 2 ^ 32)) % 2 ^ 32

/-- `VK_IMAGE_LAYOUT_UNDEFINED`. -/
def LAYOUT_UNDEFINED : Nat := 0

/-- `VK_PIPELINE_STAGE_2_TOP_OF_PIPE_BIT`. -/
def STAGE_TOP_OF_PIPE : Nat := 1

/-- `BarrierBatcher::kWriteBits` from `BarrierBatcher.h`: the OR of
`VK_ACCESS_2_SHADER_WRITE_BIT (0x40)`,
`VK_ACCESS_2_COLOR_ATTACHMENT_WRITE_BIT (0x100)`,
`VK_ACCESS_2_DEPTH_STENCIL_ATTACHMENT_WRITE_BIT (0x400)`,
`VK_ACCESS_2_TRANSFER_WRITE_BIT (0x1000)`,
`VK_ACCESS_2_HOST_WRITE_BIT (0x4000)` and
`VK_ACCESS_2_MEMORY_WRITE_BIT (0x10000)`. -/
def kWriteBits : Nat := 0x40 ||| 0x100 ||| 0x400 ||| 0x1000 ||| 0x4000 ||| 0x10000

/-- `BarrierBatcher::ImageState`: the tracked {layout, stage-mask,
access-mask} triple for one resource. -/
structure ImageState where
  layout : Nat
  stage : Nat
  access : Nat
deriving DecidableEq

/-- `VkImageMemoryBarrier2` as filled in by
`BarrierBatcher::TransitionImage` (queue-family fields are constant
`VK_QUEUE_FAMILY_IGNORED` and omitted). -/
structure ImageBarrier where
  srcStage : Nat
  srcAccess : Nat
  dstStage : Nat
  dstAccess : Nat
  oldLayout : Nat
  newLayout : Nat
  image : Option Nat
  aspect : Nat
  arrayLayers : Nat
deriving DecidableEq

/-- `VkBufferMemoryBarrier2` as filled in by
`BarrierBatcher::AddBufferBarrier`. -/
structure BufferBarrier where
  srcStage : Nat
  srcAccess : Nat
  dstStage : Nat
  dstAccess : Nat
  buffer : Nat
  offset : Nat
  size : Nat
deriving DecidableEq

/-- The `BarrierBatcher` state: per-resource tracked states plus the
two pending-barrier lists. -/
structure BarrierBatcher where
  imageStates : List ImageState
  pendingImage : List ImageBarrier
  pendingBuffer : List BufferBarrier
deriving DecidableEq

/-- `BarrierBatcher::Reset(n)`: every resource starts at
(UNDEFINED, TOP_OF_PIPE, 0) and the pending lists are cleared. -/
def BarrierBatcher.reset (n : Nat) : BarrierBatcher :=
  ⟨List.replicate n ⟨LAYOUT_UNDEFINED, STAGE_TOP_OF_PIPE, 0⟩, [], []⟩

/-- `BarrierBatcher::SetInitialState`. -/
def BarrierBatcher.setInitialState (b : BarrierBatcher) (idx layout stage access : Nat) :
    BarrierBatcher :=
  if idx < b.imageStates.length then
    {b with imageStates := b.imageStates.set idx ⟨layout, stage, access⟩}
  else b

/-- `BarrierBatcher::TransitionImage`: out-of-range indices return
unchanged; otherwise a barrier is appended when the layout changes or a
write bit is involved, and the tracked state is overwritten; when no
barrier is needed the tracked stage/access are widened by OR. -/
def BarrierBatcher.transitionImage (b : BarrierBatcher) (resourceIdx : Nat)
    (image : Option Nat) (aspect arrayLayers newLayout dstStage dstAccess : Nat) :
    BarrierBatcher :=
  if h : resourceIdx < b.imageStates.length then
    let s := b.imageStates.get ⟨resourceIdx, h⟩
    let layoutChange : Bool := s.layout != newLayout
    let hazard : Bool := (s.access &&& kWriteBits != 0) || (dstAccess &&& kWriteBits != 0)
    if !layoutChange && !hazard then
      {b with imageStates :=
        b.imageStates.set resourceIdx ⟨s.layout, s.stage ||| dstStage, s.access ||| dstAccess⟩}
    else
      {b with
        pendingImage := b.pendingImage ++
          [⟨s.stage, s.access, dstStage, dstAccess, s.layout, newLayout,
            image, aspect, arrayLayers⟩],
        imageStates := b.imageStates.set resourceIdx ⟨newLayout, dstStage, dstAccess⟩}
  else b

/-- `BarrierBatcher::AddBufferBarrier`: always appended. -/
def BarrierBatcher.addBufferBarrier (b : BarrierBatcher)
    (buffer offset size srcStage srcAccess dstStage dstAccess : Nat) : BarrierBatcher :=
  {b with pendingBuffer := b.pendingBuffer ++
    [⟨srcStage, srcAccess, dstStage, dstAccess, buffer, offset, size⟩]}

/-- A GPU command recorded into the command buffer during `Execute`:
either one batched `vkCmdPipelineBarrier2` or one pass invocation. -/
inductive GpuCmd where
  | pipelineBarrier (imgs : List ImageBarrier) (bufs : List BufferBarrier)
  | runPass (idx : Nat)
deriving DecidableEq

/-- `BarrierBatcher::Flush`: emits one batched barrier command when
anything is pending, then clears both lists. -/
def BarrierBatcher.flush (b : BarrierBatcher) : BarrierBatcher × List GpuCmd :=
  if b.pendingImage.isEmpty && b.pendingBuffer.isEmpty then (b, [])
  else ({b with pendingImage := [], pendingBuffer := []},
        [GpuCmd.pipelineBarrier b.pendingImage b.pendingBuffer])

/-- `ImageKey` from `ImageCache.h`: the structural pool signature. -/
structure ImageKey where
  format : Nat
  width : Nat
  height : Nat
  usage : Nat
  aspect : Nat
  arrayLayers : Nat
  mipLevels : Nat
  samples : Nat
  tiling : Nat
deriving DecidableEq

/-- `CachedImage` from `ImageCache.h`.  `id` models pointer identity of
the pooled entry; `image`/`view` are the backing handles. -/
structure CachedImage where
  id : Nat
  key : ImageKey
  image : Option Nat
  view : Option Nat
  lastUsedFrame : Nat
  inUse : Bool
deriving DecidableEq

/-- The `ImageCache` pool.  `entries` is the flat pool in insertion
order (the per-key bucket of `mPool` is exactly the subsequence of
entries with that key, which `Acquire` scans front to back); `nextId`
generates fresh pointer identities; `canAlloc` models whether
`vmaCreateImage` succeeds. -/
structure ImageCache where
  entries : List CachedImage
  nextId : Nat
  canAlloc : Bool
deriving DecidableEq

/-- The bucket scan inside `ImageCache::Acquire`: find the first
not-in-use entry whose key matches, mark it in use and stamp its
last-used frame; returns the updated entry and pool. -/
def acquireGo (k : ImageKey) (frame : Nat) :
    List CachedImage → Option (CachedImage × List CachedImage)
  | [] => none
  | e :: es =>
    if e.key = k ∧ e.inUse = false then
      some ({e with inUse := true, lastUsedFrame := frame},
            {e with inUse := true, lastUsedFrame := frame} :: es)
    else
      match acquireGo k frame es with
      | some p => some (p.1, e :: p.2)
      | none => none

/-- `ImageCache::CreateImage`: allocates a new backing image + view,
inserts the entry (in use, stamped with the current frame) into the
pool; returns `none` when `vmaCreateImage` fails, leaving the pool
unchanged. -/
def ImageCache.createImage (c : ImageCache) (k : ImageKey) (frame : Nat) :
    Option CachedImage × ImageCache :=
  if c.canAlloc then
    let e : CachedImage := ⟨c.nextId, k, some c.nextId, some c.nextId, frame, true⟩
    (some e, {c with entries := c.entries ++ [e], nextId := c.nextId + 1})
  else (none, c)

/-- `ImageCache::Acquire`. -/
def ImageCache.acquire (c : ImageCache) (k : ImageKey) (frame : Nat) :
    Option CachedImage × ImageCache :=
  match acquireGo k frame c.entries with
  | some p => (some p.1, {c with entries := p.2})
  | none => c.createImage k frame

/-- `ImageCache::Release`: clears the in-use flag of the pointed-to
entry (identified by its pointer identity) and nothing else. -/
def ImageCache.release (c : ImageCache) (rid : Nat) : ImageCache :=
  {c with entries := c.entries.map (fun e => if e.id = rid then {e with inUse := false} else e)}

/-- The retention predicate of `ImageCache::EvictUnused`: an entry is
kept when it is in use or its idle age (in `uint32_t` arithmetic) is
within `maxIdleFrames`. -/
def evictKeep (cf mif : Nat) (e : CachedImage) : Bool :=
  e.inUse || decide (usub32 cf e.lastUsedFrame ≤ mif)

/-- `ImageCache::EvictUnused`. -/
def ImageCache.evictUnused (c : ImageCache) (cf mif : Nat) : ImageCache :=
  {c with entries := c.entries.filter (evictKeep cf mif)}

/-- Look an entry up by pointer identity. -/
def ImageCache.lookup (c : ImageCache) (rid : Nat) : Option CachedImage :=
  c.entries.find? (fun e => e.id == rid)

/-- `TransientImageDesc` from `ResourceNode.h` (defaults:
`VK_FORMAT_R8G8B8A8_UNORM = 37`, `VK_IMAGE_ASPECT_COLOR_BIT = 1`). -/
structure TransientImageDesc where
  format : Nat
  width : Nat
  height : Nat
  usage : Nat
  aspect : Nat
  arrayLayers : Nat
deriving DecidableEq

/-- The default-initialised `TransientImageDesc`. -/
def defaultDesc : TransientImageDesc := ⟨37, 0, 0, 0, 1, 1⟩

/-- `ResourceNode` from `ResourceNode.h` (the `name` string is used
only for logging and is omitted).  `firstUse = 4294967295` encodes the
C++ `UINT32_MAX` sentinel. -/
structure ResourceNode where
  image : Option Nat
  view : Option Nat
  initialLayout : Nat
  aspect : Nat
  arrayLayers : Nat
  isTransient : Bool
  transientDesc : TransientImageDesc
  firstUse : Nat
  lastUse : Nat
deriving DecidableEq

/-- The default-initialised `ResourceNode`. -/
def defaultNode : ResourceNode := ⟨none, none, LAYOUT_UNDEFINED, 1, 1, false, defaultDesc, 4294967295, 0⟩

/-- `RenderGraph::ResourceAccess`: one declared read or write. -/
structure ResourceAccess where
  resource : Nat
  layout : Nat
  stage : Nat
  access : Nat
deriving DecidableEq

/-- `RenderGraph::Dependency`: one explicit `DependsOn` edge; the pass
listed in `dependency` must run before the declaring pass. -/
structure Dependency where
  dependency : Nat
  resource : Nat
deriving DecidableEq

/-- `RenderGraph::PassEntry` (the pass object itself is opaque; only
its declared reads, writes and dependencies drive the graph). -/
structure PassEntry where
  reads : List ResourceAccess
  writes : List ResourceAccess
  dependencies : List Dependency
deriving DecidableEq

/-- The empty pass entry, used as the lookup default. -/
def emptyPass : PassEntry := ⟨[], [], []⟩

/-- `mPasses[i]` (indices produced by `Compile` are always in range). -/
def passAt (passes : List PassEntry) (i : Nat) : PassEntry := passes.getD i emptyPass

/-- The `RenderGraph` state.  `imageCache = none` models the null
`mImageCache` pointer of a graph on which `Initialize` has not been
called; `transientRefs` stores (resource index, cached entry id). -/
structure RenderGraph where
  imageCache : Option ImageCache
  frameNumber : Nat
  resources : List ResourceNode
  passes : List PassEntry
  executionOrder : List Nat
  batcher : BarrierBatcher
  compiled : Bool
  transientRefs : List (Nat × Nat)
deriving DecidableEq

/-- `RenderGraph::AddImage`: registers a physical resource and returns
its handle (the index of the new table slot). -/
def RenderGraph.addImage (g : RenderGraph) (image view : Option Nat)
    (currentLayout aspect arrayLayers : Nat) : Nat × RenderGraph :=
  (g.resources.length,
   {g with resources := g.resources ++
     [⟨image, view, currentLayout, aspect, arrayLayers, false, defaultDesc, 4294967295, 0⟩]})

/-- `RenderGraph::CreateImage`: registers a transient resource with no
backing memory yet (null image/view handles). -/
def RenderGraph.createImage (g : RenderGraph) (desc : TransientImageDesc) :
    Nat × RenderGraph :=
  (g.resources.length,
   {g with resources := g.resources ++
     [⟨none, none, LAYOUT_UNDEFINED, desc.aspect, desc.arrayLayers, true, desc, 4294967295, 0⟩]})

/-- Update pass entry `i` in place (`mPasses[pass]`). -/
def updatePass (passes : List PassEntry) (i : Nat) (f : PassEntry → PassEntry) :
    List PassEntry :=
  match passes[i]? with
  | none => passes
  | some pe => passes.set i (f pe)

/-- `RenderGraph::Read`. -/
def RenderGraph.readRes (g : RenderGraph) (pass : Nat) (a : ResourceAccess) : RenderGraph :=
  {g with passes := updatePass g.passes pass (fun pe => {pe with reads := pe.reads ++ [a]})}

/-- `RenderGraph::Write`. -/
def RenderGraph.writeRes (g : RenderGraph) (pass : Nat) (a : ResourceAccess) : RenderGraph :=
  {g with passes := updatePass g.passes pass (fun pe => {pe with writes := pe.writes ++ [a]})}

/-- `RenderGraph::DependsOn`. -/
def RenderGraph.dependsOn (g : RenderGraph) (pass resource dependency : Nat) : RenderGraph :=
  let add := fun pe => {pe with dependencies := pe.dependencies ++ [⟨dependency, resource⟩]}
  {g with passes := updatePass g.passes pass add}

/-- The explicit dependency edges built by the first loop of
`RenderGraph::Compile`: for each pass `i` and each declared dependency
`d`, one edge `(d.dependency, i)` meaning `d.dependency → i`. -/
def dependsEdgesFrom : Nat → List PassEntry → List (Nat × Nat)
  | _, [] => []
  | i, pe :: rest =>
    pe.dependencies.map (fun d => (d.dependency, i)) ++ dependsEdgesFrom (i + 1) rest

/-- All dependency edges of a pass list. -/
def dependsEdges (passes : List PassEntry) : List (Nat × Nat) :=
  dependsEdgesFrom 0 passes

/-- `adj[p]`: successors of `p`, in the order the double loop of
`Compile` pushes them. -/
def adjList (E : List (Nat × Nat)) (p : Nat) : List Nat :=
  (E.filter (fun e => e.1 == p)).map (fun e => e.2)

/-- `inDegree[v]`: the number of dependency edges into `v`. -/
def inDeg (E : List (Nat × Nat)) (v : Nat) : Nat :=
  E.countP (fun e => e.2 == v)

/-- The inner loop of Kahn's algorithm: decrement the counter of every
successor of the popped node, collecting (in push order) the nodes
whose counter reaches zero.  The push test compares the pre-decrement
value with 1, which on `uint32_t` is equivalent to the post-decrement
`--inDegree[next] == 0` test of the source. -/
def decrementAll : List Nat → List Nat → List Nat × List Nat
  | [], counts => (counts, [])
  | next :: rest, counts =>
    let c := counts.getD next 0
    let p := decrementAll rest (counts.set next (c - 1))
    if c = 1 then (p.1, next :: p.2) else p

/-- The `while (!ready.empty())` loop of `Compile`, fuelled; the fuel
passed by `topoSort` always suffices for the queue to drain. -/
def kahnLoop (adj : Nat → List Nat) : Nat → List Nat → List Nat → List Nat → List Nat
  | 0, _, _, order => order
  | _ + 1, [], _, order => order
  | fuel + 1, p :: rest, counts, order =>
    let d := decrementAll (adj p) counts
    kahnLoop adj fuel (rest ++ d.2) d.1 (order ++ [p])

/-- Kahn's algorithm as run by `Compile`: seed the queue with all
zero-in-degree passes (in declaration order) and drain it. -/
def topoSort (n : Nat) (E : List (Nat × Nat)) : List Nat :=
  kahnLoop (adjList E) (n + E.length)
    ((List.range n).filter (fun i => inDeg E i == 0))
    ((List.range n).map (inDeg E)) []

/-- `mExecutionOrder` as produced by `Compile`: the topological sort
when it consumed every pass, otherwise the declaration-order fallback
`0, 1, ..., passCount - 1`. -/
def compileOrder (passes : List PassEntry) : List Nat :=
  let order := topoSort passes.length (dependsEdges passes)
  if order.length = passes.length then order else List.range passes.length

/-- The `touch` lambda of `RenderGraph::ComputeLifetimes`: widen the
[firstUse, lastUse] range of resource `h` to include position `ordIdx`
(out-of-range handles are ignored, as in the source). -/
def touchRes (ordIdx : Nat) (resources : List ResourceNode) (h : Nat) : List ResourceNode :=
  match resources[h]? with
  | none => resources
  | some r => resources.set h
      {r with firstUse := min r.firstUse ordIdx, lastUse := max r.lastUse ordIdx}

/-- One execution-order slot of `ComputeLifetimes`: touch every read
then every write of the pass. -/
def touchPass (ordIdx : Nat) (pe : PassEntry) (resources : List ResourceNode) :
    List ResourceNode :=
  pe.writes.foldl (fun rs a => touchRes ordIdx rs a.resource)
    (pe.reads.foldl (fun rs a => touchRes ordIdx rs a.resource) resources)

/-- `RenderGraph::ComputeLifetimes`: reset every range to
[UINT32_MAX, 0], then fold over the execution order. -/
def computeLifetimes (resources : List ResourceNode) (passes : List PassEntry)
    (order : List Nat) : List ResourceNode :=
  (order.enum).foldl (fun rs oi => touchPass oi.1 (passAt passes oi.2) rs)
    (resources.map (fun r => {r with firstUse := 4294967295, lastUse := 0}))

/-- The result of `RenderGraph::AllocateTransientResources`: updated
resource nodes, updated cache, the new `mTransientRefs`, and the list
of `Acquire(key, frame)` invocations made on the cache (in call
order). -/
structure AllocResult where
  resources : List ResourceNode
  cache : ImageCache
  refs : List (Nat × Nat)
  calls : List (ImageKey × Nat)
deriving DecidableEq

/-- The `ImageKey` built from a transient description inside
`AllocateTransientResources` (`mipLevels`, `samples`, `tiling` keep
their defaults 1, `VK_SAMPLE_COUNT_1_BIT` = 1,
`VK_IMAGE_TILING_OPTIMAL` = 0). -/
def keyOfDesc (d : TransientImageDesc) : ImageKey :=
  ⟨d.format, d.width, d.height, d.usage, d.aspect, d.arrayLayers, 1, 1, 0⟩

/-- The loop of `AllocateTransientResources`: every transient resource
— with no gating on its usage range — is resolved by one `Acquire`
call built from its description; on success the node receives the
cached image/view and a transient ref is recorded, on failure the node
is left untouched (null handles). -/
def allocLoop (frame : Nat) : Nat → List ResourceNode → ImageCache → AllocResult
  | _, [], c => ⟨[], c, [], []⟩
  | i, res :: rest, c =>
    if res.isTransient then
      let key := keyOfDesc res.transientDesc
      let ac := c.acquire key frame
      let tail := allocLoop frame (i + 1) rest ac.2
      match ac.1 with
      | some e =>
        ⟨{res with image := e.image, view := e.view} :: tail.resources,
          tail.cache, (i, e.id) :: tail.refs, (key, frame) :: tail.calls⟩
      | none => ⟨res :: tail.resources, tail.cache, tail.refs, (key, frame) :: tail.calls⟩
    else
      let tail := allocLoop frame (i + 1) rest c
      ⟨res :: tail.resources, tail.cache, tail.refs, tail.calls⟩

/-- `RenderGraph::Compile`.  Returns `none` when the body performs the
null-`mImageCache` dereference of `AllocateTransientResources` (a graph
never initialised that contains a transient resource) — undefined
behaviour / crash in the C++; otherwise the updated graph together with
the log of `Acquire` calls. -/
def RenderGraph.compile (g : RenderGraph) : Option (RenderGraph × List (ImageKey × Nat)) :=
  let order := compileOrder g.passes
  let res₁ := computeLifetimes g.resources g.passes order
  match g.imageCache with
  | none =>
    if res₁.any (fun r => r.isTransient) then none
    else some ({g with resources := res₁, executionOrder := order, compiled := true}, [])
  | some cache =>
    let a := allocLoop g.frameNumber 0 res₁ cache
    let g' := {g with
      resources := a.resources
      imageCache := some a.cache
      executionOrder := order
      transientRefs := g.transientRefs ++ a.refs
      compiled := true}
    some (g', a.calls)

/-- One `TransitionImage` request issued by `Execute` for a declared
access (the source indexes `mResources[r.resource]`, valid for graphs
built through the API). -/
def transitionAccess (resources : List ResourceNode) (b : BarrierBatcher)
    (a : ResourceAccess) : BarrierBatcher :=
  let res := resources.getD a.resource defaultNode
  b.transitionImage a.resource res.image res.aspect res.arrayLayers a.layout a.stage a.access

/-- One pass of the `Execute` walk: transition every declared read and
write, flush the accumulated barriers, then invoke the pass. -/
def execPass (resources : List ResourceNode) (passes : List PassEntry)
    (acc : BarrierBatcher × List GpuCmd) (passIdx : Nat) : BarrierBatcher × List GpuCmd :=
  let entry := passAt passes passIdx
  let b₂ := entry.writes.foldl (transitionAccess resources)
    (entry.reads.foldl (transitionAccess resources) acc.1)
  let f := b₂.flush
  (f.1, acc.2 ++ f.2 ++ [GpuCmd.runPass passIdx])

/-- `RenderGraph::Execute`: before `Compile` it is a no-op recording
nothing; otherwise it resets the batcher, seeds each resource's initial
layout, and walks the execution order. -/
def RenderGraph.execute (g : RenderGraph) : RenderGraph × List GpuCmd :=
  if g.compiled = false then (g, [])
  else
    let b₁ := (g.resources.enum).foldl
      (fun b ir => b.setInitialState ir.1 ir.2.initialLayout STAGE_TOP_OF_PIPE 0)
      (BarrierBatcher.reset g.resources.length)
    let r := g.executionOrder.foldl (execPass g.resources g.passes) (b₁, [])
    ({g with batcher := r.1}, r.2)

/-- `RenderGraph::BeginFrame`: release transient claims, clear the
frame-scoped tables, reset compiled state. -/
def RenderGraph.beginFrame (g : RenderGraph) (frameNumber : Nat) : RenderGraph :=
  let cache' := match g.imageCache with
    | none => none
    | some c => some (g.transientRefs.foldl (fun c r => c.release r.2) c)
  {g with imageCache := cache', transientRefs := [], resources := [], passes := [],
          executionOrder := [], compiled := false, frameNumber := frameNumber}

/-! ## Barrier batcher lemmas -/

/-- The tracked state of resource `idx` (total accessor). -/
def BarrierBatcher.stateAt (b : BarrierBatcher) (idx : Nat) : ImageState :=
  b.imageStates.getD idx ⟨0, 0, 0⟩

theorem stateAt_of_lt (b : BarrierBatcher) (idx : Nat) (h : idx < b.imageStates.length) :
    b.imageStates[idx] = b.stateAt idx :=
  (List.getD_eq_getElem _ _ h).symm

/-- `TransitionImage` in the no-barrier case: tracked stage/access are
widened by OR, layout and pending lists untouched. -/
theorem transitionImage_merge (b : BarrierBatcher) (idx : Nat) (img : Option Nat)
    (aspect layers newLayout dstStage dstAccess : Nat) (h : idx < b.imageStates.length)
    (h1 : (b.stateAt idx).layout = newLayout)
    (h2 : (b.stateAt idx).access &&& kWriteBits = 0)
    (h3 : dstAccess &&& kWriteBits = 0) :
    b.transitionImage idx img aspect layers newLayout dstStage dstAccess =
      {b with imageStates := b.imageStates.set idx ⟨(b.stateAt idx).layout, (b.stateAt idx).stage ||| dstStage, (b.stateAt idx).access ||| dstAccess⟩} := by
  simp only [BarrierBatcher.transitionImage, dif_pos h, List.get_eq_getElem,
    stateAt_of_lt b idx h]
  rw [if_pos]
  simp [h1, h2, h3]

/-- `TransitionImage` in the barrier case: the transition record is
appended (source = tracked state, destination = request) and the
tracked state is overwritten. -/
theorem transitionImage_emit (b : BarrierBatcher) (idx : Nat) (img : Option Nat)
    (aspect layers newLayout dstStage dstAccess : Nat) (h : idx < b.imageStates.length)
    (hc : ¬((b.stateAt idx).layout = newLayout ∧
            (b.stateAt idx).access &&& kWriteBits = 0 ∧
            dstAccess &&& kWriteBits = 0)) :
    b.transitionImage idx img aspect layers newLayout dstStage dstAccess =
      {b with
        pendingImage := b.pendingImage ++
          [⟨(b.stateAt idx).stage, (b.stateAt idx).access,
            dstStage, dstAccess, (b.stateAt idx).layout, newLayout,
            img, aspect, layers⟩],
        imageStates := b.imageStates.set idx ⟨newLayout, dstStage, dstAccess⟩} := by
  have hguard : ¬((!((b.stateAt idx).layout != newLayout) &&
      !(((b.stateAt idx).access &&& kWriteBits != 0) ||
        (dstAccess &&& kWriteBits != 0))) = true) := by
    simp only [Bool.and_eq_true, Bool.not_eq_true', bne_eq_false_iff_eq,
      Bool.or_eq_false_iff]
    tauto
  simp only [BarrierBatcher.transitionImage, dif_pos h, List.get_eq_getElem,
    stateAt_of_lt b idx h]
  rw [if_neg hguard]

/-- C2: with an in-range resource index, `TransitionImage` appends a
new pending image barrier if and only if the requested layout differs
from the tracked layout or one of the two access masks contains a
write bit; otherwise the pending list is unchanged. -/
theorem transitionImage_appends_iff (b : BarrierBatcher) (idx : Nat) (img : Option Nat)
    (aspect layers newLayout dstStage dstAccess : Nat) (h : idx < b.imageStates.length) :
    ((b.transitionImage idx img aspect layers newLayout dstStage dstAccess).pendingImage.length
        = b.pendingImage.length + 1 ↔
      ((b.stateAt idx).layout ≠ newLayout ∨
       (b.stateAt idx).access &&& kWriteBits ≠ 0 ∨
       dstAccess &&& kWriteBits ≠ 0)) ∧
    (((b.stateAt idx).layout = newLayout ∧
      (b.stateAt idx).access &&& kWriteBits = 0 ∧
      dstAccess &&& kWriteBits = 0) →
      (b.transitionImage idx img aspect layers newLayout dstStage dstAccess).pendingImage
        = b.pendingImage) := by
  constructor
  · constructor
    · intro hlen
      by_contra hcond
      push_neg at hcond
      rw [transitionImage_merge b idx img aspect layers newLayout dstStage dstAccess h
        hcond.1 hcond.2.1 hcond.2.2] at hlen
      simp at hlen
    · intro hcond
      have hc : ¬((b.stateAt idx).layout = newLayout ∧
          (b.stateAt idx).access &&& kWriteBits = 0 ∧
          dstAccess &&& kWriteBits = 0) := by tauto
      rw [transitionImage_emit b idx img aspect layers newLayout dstStage dstAccess h hc]
      simp
  · intro hcond
    rw [transitionImage_merge b idx img aspect layers newLayout dstStage dstAccess h
      hcond.1 hcond.2.1 hcond.2.2]

/-- Witness for C2 at a concrete input: one tracked resource in state
(layout 2, TOP_OF_PIPE, `SHADER_READ`), asked for layout 5 with a pure
read — the layout change alone appends a barrier, and the same request
at the unchanged layout 2 appends nothing. -/
theorem transitionImage_appends_iff_witness :
    (0 < (BarrierBatcher.mk [⟨2, 1, 32⟩] [] []).imageStates.length) ∧
    (((BarrierBatcher.mk [⟨2, 1, 32⟩] [] []).transitionImage 0 (some 7) 1 1 5 8
        32).pendingImage.length = 1) ∧
    (((BarrierBatcher.mk [⟨2, 1, 32⟩] [] []).transitionImage 0 (some 7) 1 1 2 8
        32).pendingImage = []) := by
  refine ⟨by decide, ?_, ?_⟩
  · exact (transitionImage_appends_iff (BarrierBatcher.mk [⟨2, 1, 32⟩] [] []) 0 (some 7)
      1 1 5 8 32 (by decide)).1.mpr (by decide)
  · exact (transitionImage_appends_iff (BarrierBatcher.mk [⟨2, 1, 32⟩] [] []) 0 (some 7)
      1 1 2 8 32 (by decide)).2 (by decide)

/-- One `TransitionImage` request against a fixed resource index. -/
structure TransReq where
  image : Option Nat
  aspect : Nat
  arrayLayers : Nat
  layout : Nat
  stage : Nat
  access : Nat
deriving DecidableEq

/-- Apply one request. -/
def applyReq (idx : Nat) (b : BarrierBatcher) (r : TransReq) : BarrierBatcher :=
  b.transitionImage idx r.image r.aspect r.arrayLayers r.layout r.stage r.access

/-- Apply a sequence of requests in order. -/
def applyReqs (idx : Nat) (b : BarrierBatcher) (rs : List TransReq) : BarrierBatcher :=
  rs.foldl (applyReq idx) b

/-- `m` is a bit-mask superset of `x`: OR-ing `x` into `m` changes
nothing. -/
def bitSub (x m : Nat) : Prop := x ||| m = m

theorem bitSub_refl (x : Nat) : bitSub x x := Nat.or_self x

theorem bitSub_lor_left (x y : Nat) : bitSub x (x ||| y) := by
  unfold bitSub
  rw [← Nat.lor_assoc, Nat.or_self]

theorem bitSub_lor_right (x y : Nat) : bitSub x (y ||| x) := by
  unfold bitSub
  rw [Nat.lor_comm y x, ← Nat.lor_assoc, Nat.or_self]

theorem bitSub_trans {x m m' : Nat} (h1 : bitSub x m) (h2 : bitSub m m') : bitSub x m' := by
  unfold bitSub at h1 h2 ⊢
  rw [← h2, ← Nat.lor_assoc, h1]

/-- `TransitionImage` never shrinks the pending list and never touches
the per-resource state count. -/
theorem applyReq_shape (idx : Nat) (b : BarrierBatcher) (r : TransReq) :
    b.pendingImage.length ≤ (applyReq idx b r).pendingImage.length ∧
    (applyReq idx b r).imageStates.length = b.imageStates.length := by
  unfold applyReq BarrierBatcher.transitionImage
  simp only []
  split
  · split
    · simp
    · simp
  · simp

theorem applyReqs_cons (idx : Nat) (b : BarrierBatcher) (r : TransReq) (rest : List TransReq) :
    applyReqs idx b (r :: rest) = applyReqs idx (applyReq idx b r) rest := rfl

/-- Sequenced requests never shrink the pending list and preserve the
state count. -/
theorem applyReqs_shape (idx : Nat) (rs : List TransReq) (b : BarrierBatcher) :
    b.pendingImage.length ≤ (applyReqs idx b rs).pendingImage.length ∧
    (applyReqs idx b rs).imageStates.length = b.imageStates.length := by
  induction rs generalizing b with
  | nil => exact ⟨Nat.le_refl _, rfl⟩
  | cons r rest ih =>
    have hstep := applyReq_shape idx b r
    have htail := ih (applyReq idx b r)
    rw [applyReqs_cons]
    exact ⟨Nat.le_trans hstep.1 htail.1, by rw [htail.2]; exact hstep.2⟩

/-- If a request sequence leaves the pending list unchanged, every step
was a merge: the final tracked layout is the initial one and the final
tracked stage/access masks are supersets of the initial masks and of
every requested stage/access. -/
theorem applyReqs_merge_state (idx : Nat) (rs : List TransReq) (b : BarrierBatcher)
    (h : idx < b.imageStates.length)
    (hnb : (applyReqs idx b rs).pendingImage.length = b.pendingImage.length) :
    ((applyReqs idx b rs).stateAt idx).layout = (b.stateAt idx).layout ∧
    bitSub (b.stateAt idx).stage ((applyReqs idx b rs).stateAt idx).stage ∧
    bitSub (b.stateAt idx).access ((applyReqs idx b rs).stateAt idx).access ∧
    (b.stateAt idx).access &&& kWriteBits
        = ((applyReqs idx b rs).stateAt idx).access &&& kWriteBits ∧
    ∀ q ∈ rs, bitSub q.stage ((applyReqs idx b rs).stateAt idx).stage ∧
      bitSub q.access ((applyReqs idx b rs).stateAt idx).access := by
  induction rs generalizing b with
  | nil =>
    exact ⟨rfl, bitSub_refl _, bitSub_refl _, rfl, by simp⟩
  | cons r rest ih =>
    rw [applyReqs_cons] at hnb ⊢
    -- the first step cannot have emitted a barrier
    have hmono₁ := applyReq_shape idx b r
    have hmono₂ := applyReqs_shape idx rest (applyReq idx b r)
    have hstep : (applyReq idx b r).pendingImage.length = b.pendingImage.length := by
      omega
    have hcond : (b.stateAt idx).layout = r.layout ∧
        (b.stateAt idx).access &&& kWriteBits = 0 ∧
        r.access &&& kWriteBits = 0 := by
      by_contra hc
      have hemit := transitionImage_emit b idx r.image r.aspect r.arrayLayers r.layout
        r.stage r.access h hc
      unfold applyReq at hstep
      rw [hemit] at hstep
      simp at hstep
    have hmerge := transitionImage_merge b idx r.image r.aspect r.arrayLayers r.layout
      r.stage r.access h hcond.1 hcond.2.1 hcond.2.2
    have hb₁len : idx < (applyReq idx b r).imageStates.length := by
      rw [hmono₁.2]; exact h
    have hget : (applyReq idx b r).stateAt idx =
        ⟨(b.stateAt idx).layout, (b.stateAt idx).stage ||| r.stage,
         (b.stateAt idx).access ||| r.access⟩ := by
      unfold applyReq
      rw [hmerge]
      unfold BarrierBatcher.stateAt
      simp only []
      rw [List.getD_eq_getElem _ _ (by simpa using h)]
      exact List.getElem_set_self (by simpa using h)
    have IH := ih (applyReq idx b r) hb₁len (by omega)
    rw [hget] at IH
    have haccw : (b.stateAt idx).access &&& kWriteBits
        = ((b.stateAt idx).access ||| r.access) &&& kWriteBits := by
      rw [Nat.and_distrib_right, hcond.2.1, hcond.2.2]
      simp
    refine ⟨IH.1, ?_, ?_, ?_, ?_⟩
    · exact bitSub_trans (bitSub_lor_left _ _) IH.2.1
    · exact bitSub_trans (bitSub_lor_left _ _) IH.2.2.1
    · rw [haccw]; exact IH.2.2.2.1
    · intro q hq
      rcases List.mem_cons.mp hq with rfl | hq'
      · exact ⟨bitSub_trans (bitSub_lor_right _ _) IH.2.1,
          bitSub_trans (bitSub_lor_right _ _) IH.2.2.1⟩
      · exact IH.2.2.2.2 q hq'

/-- C4: when `TransitionImage` decides no barrier is needed, the
tracked stage/access masks become the bitwise OR of their previous
values with the requested ones and the tracked layout is unchanged;
consequently, after any sequence of no-barrier transitions, a
barrier-requiring transition emits a barrier whose source stage/access
masks are bit-supersets of every stage/access requested since the last
emitted barrier (and of the starting masks). -/
theorem transition_or_accumulates (b : BarrierBatcher) (idx : Nat)
    (r : TransReq) (rs : List TransReq) (rLast : TransReq)
    (h : idx < b.imageStates.length)
    (hr1 : (b.stateAt idx).layout = r.layout)
    (hr2 : (b.stateAt idx).access &&& kWriteBits = 0)
    (hr3 : r.access &&& kWriteBits = 0)
    (hnb : (applyReqs idx b rs).pendingImage.length = b.pendingImage.length)
    (hlast : ¬(((applyReqs idx b rs).stateAt idx).layout = rLast.layout ∧
               ((applyReqs idx b rs).stateAt idx).access &&& kWriteBits = 0 ∧
               rLast.access &&& kWriteBits = 0)) :
    (applyReq idx b r = {b with imageStates := b.imageStates.set idx ⟨(b.stateAt idx).layout, (b.stateAt idx).stage ||| r.stage, (b.stateAt idx).access ||| r.access⟩}) ∧
    (∃ bar : ImageBarrier,
      (applyReq idx (applyReqs idx b rs) rLast).pendingImage
          = (applyReqs idx b rs).pendingImage ++ [bar] ∧
      bitSub (b.stateAt idx).stage bar.srcStage ∧
      bitSub (b.stateAt idx).access bar.srcAccess ∧
      ∀ q ∈ rs, bitSub q.stage bar.srcStage ∧ bitSub q.access bar.srcAccess) := by
  have hlen : idx < (applyReqs idx b rs).imageStates.length := by
    rw [(applyReqs_shape idx rs b).2]; exact h
  have hst := applyReqs_merge_state idx rs b h hnb
  constructor
  · exact transitionImage_merge b idx r.image r.aspect r.arrayLayers r.layout
      r.stage r.access h hr1 hr2 hr3
  · have hemit := transitionImage_emit (applyReqs idx b rs) idx rLast.image rLast.aspect
      rLast.arrayLayers rLast.layout rLast.stage rLast.access hlen hlast
    refine ⟨⟨((applyReqs idx b rs).stateAt idx).stage,
      ((applyReqs idx b rs).stateAt idx).access, rLast.stage, rLast.access,
      ((applyReqs idx b rs).stateAt idx).layout, rLast.layout,
      rLast.image, rLast.aspect, rLast.arrayLayers⟩, ?_, ?_, ?_, ?_⟩
    · unfold applyReq
      rw [hemit]
    · exact hst.2.1
    · exact hst.2.2.1
    · intro q hq
      exact hst.2.2.2.2 q hq

/-- Witness for C4 at a concrete input: starting from the reset state
(UNDEFINED, TOP_OF_PIPE = 1, 0), two reads at stages 8 and 64 with
read-only accesses 32 and 128 merge without barriers; a transition to
layout 2 then emits a barrier whose source masks contain 1, 8 and 64
(resp. 32 and 128). -/
theorem transition_or_accumulates_witness :
    (0 < (BarrierBatcher.reset 1).imageStates.length ∧
     ((BarrierBatcher.reset 1).stateAt 0).layout = 0 ∧
     ((BarrierBatcher.reset 1).stateAt 0).access &&& kWriteBits = 0 ∧
     (32 : Nat) &&& kWriteBits = 0 ∧
     (applyReqs 0 (BarrierBatcher.reset 1)
        [⟨some 7, 1, 1, 0, 8, 32⟩, ⟨some 7, 1, 1, 0, 64, 128⟩]).pendingImage.length
        = (BarrierBatcher.reset 1).pendingImage.length ∧
     ¬(((applyReqs 0 (BarrierBatcher.reset 1)
          [⟨some 7, 1, 1, 0, 8, 32⟩, ⟨some 7, 1, 1, 0, 64, 128⟩]).stateAt 0).layout = 2 ∧
        ((applyReqs 0 (BarrierBatcher.reset 1)
          [⟨some 7, 1, 1, 0, 8, 32⟩, ⟨some 7, 1, 1, 0, 64, 128⟩]).stateAt 0).access
            &&& kWriteBits = 0 ∧
        (32 : Nat) &&& kWriteBits = 0)) ∧
    (∃ bar : ImageBarrier,
      (applyReq 0 (applyReqs 0 (BarrierBatcher.reset 1)
          [⟨some 7, 1, 1, 0, 8, 32⟩, ⟨some 7, 1, 1, 0, 64, 128⟩]) ⟨some 7, 1, 1, 2, 16, 32⟩).pendingImage
          = (applyReqs 0 (BarrierBatcher.reset 1)
              [⟨some 7, 1, 1, 0, 8, 32⟩, ⟨some 7, 1, 1, 0, 64, 128⟩]).pendingImage ++ [bar] ∧
      bitSub ((BarrierBatcher.reset 1).stateAt 0).stage bar.srcStage ∧
      bitSub ((BarrierBatcher.reset 1).stateAt 0).access bar.srcAccess ∧
      ∀ q ∈ [(⟨some 7, 1, 1, 0, 8, 32⟩ : TransReq), ⟨some 7, 1, 1, 0, 64, 128⟩],
        bitSub q.stage bar.srcStage ∧ bitSub q.access bar.srcAccess) := by
  refine ⟨⟨by decide, by decide, by decide, by decide, by decide, by decide⟩, ?_⟩
  exact (transition_or_accumulates (BarrierBatcher.reset 1) 0 ⟨some 7, 1, 1, 0, 8, 32⟩
    [⟨some 7, 1, 1, 0, 8, 32⟩, ⟨some 7, 1, 1, 0, 64, 128⟩] ⟨some 7, 1, 1, 2, 16, 32⟩
    (by decide) (by decide) (by decide) (by decide) (by decide) (by decide)).2

/-! ## Image cache lemmas -/

/-- C8: after `EvictUnused(currentFrame, maxIdleFrames)` an entry
remains in the pool if and only if it was pooled before and is either
in use or idle for at most `maxIdleFrames` frames (in unsigned 32-bit
arithmetic); equivalently, exactly the not-in-use entries with
`currentFrame - lastUsedFrame > maxIdleFrames` are destroyed and
removed, and retained entries are unchanged. -/
theorem evictUnused_mem_iff (c : ImageCache) (cf mif : Nat) (e : CachedImage) :
    e ∈ (c.evictUnused cf mif).entries ↔
      (e ∈ c.entries ∧ (e.inUse = true ∨ usub32 cf e.lastUsedFrame ≤ mif)) := by
  simp [ImageCache.evictUnused, List.mem_filter, evictKeep]

/-- Entries left untouched by `Release` keep their values; matching
entries only lose the in-use flag. -/
theorem release_entries (c : ImageCache) (rid : Nat) :
    (c.release rid).entries =
      c.entries.map (fun e => if e.id = rid then {e with inUse := false} else e) := rfl

/-- A list whose function images equal the elements maps to itself. -/
theorem map_eq_self_of {α : Type} (l : List α) (f : α → α) (h : ∀ x ∈ l, f x = x) :
    l.map f = l := by
  induction l with
  | nil => rfl
  | cons a l ih =>
    simp only [List.map_cons, h a (by simp)]
    rw [ih (fun x hx => h x (by simp [hx]))]

/-- C10: `Release` only clears the in-use flag — every entry keeps its
identity, key, handles and (in particular) `lastUsedFrame` — so an
entry released after being held in use for more than `maxIdleFrames`
frames is destroyed by the very next `EvictUnused` call. -/
theorem release_only_clears_inUse (c : ImageCache) (rid cf mif : Nat) (e : CachedImage)
    (hnodup : (c.entries.map CachedImage.id).Nodup)
    (hmem : e ∈ c.entries) (hid : e.id = rid) (hinuse : e.inUse = true)
    (hidle : mif < usub32 cf e.lastUsedFrame) :
    ((c.release rid).entries.map (fun x => (x.id, x.key, x.image, x.view, x.lastUsedFrame))
        = c.entries.map (fun x => (x.id, x.key, x.image, x.view, x.lastUsedFrame))) ∧
    (∀ x ∈ (c.release rid).entries, x.id ≠ rid → x ∈ c.entries ∧ x.inUse = (if x.id = rid then false else x.inUse)) ∧
    (∀ x ∈ (c.release rid).entries, x.id = rid → x.inUse = false) ∧
    (((c.release rid).evictUnused cf mif).entries.find? (fun x => x.id == rid) = none) := by
  have hshape : ∀ x ∈ (c.release rid).entries,
      ∃ y ∈ c.entries, x = (if y.id = rid then {y with inUse := false} else y) := by
    intro x hx
    rw [release_entries] at hx
    obtain ⟨y, hy, hxy⟩ := List.mem_map.mp hx
    exact ⟨y, hy, hxy.symm⟩
  refine ⟨?_, ?_, ?_, ?_⟩
  · rw [release_entries, List.map_map]
    apply List.map_congr_left
    intro x _
    by_cases hx : x.id = rid <;> simp [hx]
  · intro x hx hne
    obtain ⟨y, hy, hxy⟩ := hshape x hx
    by_cases hyr : y.id = rid
    · rw [if_pos hyr] at hxy
      exact absurd (by rw [hxy]; exact hyr) hne
    · rw [if_neg hyr] at hxy
      subst hxy
      exact ⟨hy, by rw [if_neg hne]⟩
  · intro x hx hxr
    obtain ⟨y, hy, hxy⟩ := hshape x hx
    by_cases hyr : y.id = rid
    · rw [if_pos hyr] at hxy
      rw [hxy]
    · rw [if_neg hyr] at hxy
      subst hxy
      exact absurd hxr hyr
  · rw [List.find?_eq_none]
    intro x hx
    simp only [beq_iff_eq]
    intro hxr
    have hx' : x ∈ (c.release rid).entries ∧ evictKeep cf mif x = true :=
      List.mem_filter.mp hx
    obtain ⟨y, hy, hxy⟩ := hshape x hx'.1
    by_cases hyr : y.id = rid
    · rw [if_pos hyr] at hxy
      -- y and e share an id, and pool ids are unique
      have hye : y = e := by
        have hinj := List.inj_on_of_nodup_map hnodup
        exact hinj hy hmem (by rw [hyr, hid])
      subst hye
      rw [hxy] at hx'
      have : evictKeep cf mif {y with inUse := false} = false := by
        simp [evictKeep]
        omega
      rw [this] at hx'
      exact absurd hx'.2 (by simp)
    · rw [if_neg hyr] at hxy
      subst hxy
      exact absurd hxr hyr

/-- Witness for C10: a one-entry pool whose entry (id 0) was acquired
at frame 0 and held in use; at frame 5 with a 2-frame idle window,
releasing it makes the next `EvictUnused` destroy it. -/
theorem release_only_clears_inUse_witness :
    (((ImageCache.mk [⟨0, ⟨1, 2, 3, 4, 5, 6, 1, 1, 0⟩, some 0, some 0, 0, true⟩] 1
        true).entries.map CachedImage.id).Nodup ∧
     (⟨0, ⟨1, 2, 3, 4, 5, 6, 1, 1, 0⟩, some 0, some 0, 0, true⟩ : CachedImage) ∈
       (ImageCache.mk [⟨0, ⟨1, 2, 3, 4, 5, 6, 1, 1, 0⟩, some 0, some 0, 0, true⟩] 1
        true).entries ∧
     (2 : Nat) < usub32 5 0) ∧
    (((ImageCache.mk [⟨0, ⟨1, 2, 3, 4, 5, 6, 1, 1, 0⟩, some 0, some 0, 0, true⟩] 1
        true).release 0).evictUnused 5 2).entries.find? (fun x => x.id == 0) = none := by
  refine ⟨⟨by decide, by decide, by decide⟩, ?_⟩
  exact (release_only_clears_inUse
    (ImageCache.mk [⟨0, ⟨1, 2, 3, 4, 5, 6, 1, 1, 0⟩, some 0, some 0, 0, true⟩] 1 true)
    0 5 2 ⟨0, ⟨1, 2, 3, 4, 5, 6, 1, 1, 0⟩, some 0, some 0, 0, true⟩
    (by decide) (by decide) (by decide) (by decide) (by decide)).2.2.2

/-- When the bucket scan succeeds it returns the first not-in-use
matching entry (marked in use, frame-stamped) and updates the pool in
place. -/
theorem acquireGo_eq_some (k : ImageKey) (f : Nat) (es : List CachedImage)
    (p : CachedImage × List CachedImage) (h : acquireGo k f es = some p) :
    ∃ pre e post, es = pre ++ e :: post ∧
      (∀ x ∈ pre, ¬(x.key = k ∧ x.inUse = false)) ∧
      e.key = k ∧ e.inUse = false ∧
      p.1 = {e with inUse := true, lastUsedFrame := f} ∧
      p.2 = pre ++ {e with inUse := true, lastUsedFrame := f} :: post := by
  induction es generalizing p with
  | nil => simp [acquireGo] at h
  | cons a es ih =>
    rw [acquireGo] at h
    split at h
    · rename_i hcond
      refine ⟨[], a, es, by simp, by simp, hcond.1, hcond.2, ?_, ?_⟩
      · exact (congrArg Prod.fst (Option.some_injective _ h)).symm
      · exact (congrArg Prod.snd (Option.some_injective _ h)).symm
    · rename_i hcond
      cases hrec : acquireGo k f es with
      | none => rw [hrec] at h; exact absurd h (by simp)
      | some q =>
        rw [hrec] at h
        have hp : p = (q.1, a :: q.2) := (Option.some_injective _ h).symm
        obtain ⟨pre, e, post, h1, h2, h3, h4, h5, h6⟩ := ih q hrec
        refine ⟨a :: pre, e, post, by simp [h1], ?_, h3, h4, by rw [hp]; exact h5, ?_⟩
        · intro x hx
          rcases List.mem_cons.mp hx with rfl | hx'
          · exact hcond
          · exact h2 x hx'
        · rw [hp]
          simp [h6]

/-- When the bucket scan fails no pooled entry matches and is free. -/
theorem acquireGo_eq_none (k : ImageKey) (f : Nat) (es : List CachedImage)
    (h : acquireGo k f es = none) :
    ∀ x ∈ es, ¬(x.key = k ∧ x.inUse = false) := by
  induction es with
  | nil => simp
  | cons a es ih =>
    rw [acquireGo] at h
    split at h
    · exact absurd h (by simp)
    · rename_i hcond
      cases hrec : acquireGo k f es with
      | none =>
        intro x hx
        rcases List.mem_cons.mp hx with rfl | hx'
        · exact hcond
        · exact ih hrec x hx'
      | some q => rw [hrec] at h; exact absurd h (by simp)

/-- The bucket scan finds the first matching free entry. -/
theorem acquireGo_skip (k : ImageKey) (f : Nat) (pre : List CachedImage)
    (e : CachedImage) (post : List CachedImage)
    (hpre : ∀ x ∈ pre, ¬(x.key = k ∧ x.inUse = false))
    (he1 : e.key = k) (he2 : e.inUse = false) :
    acquireGo k f (pre ++ e :: post) =
      some ({e with inUse := true, lastUsedFrame := f},
            pre ++ {e with inUse := true, lastUsedFrame := f} :: post) := by
  induction pre with
  | nil =>
    rw [List.nil_append, acquireGo, if_pos ⟨he1, he2⟩]
    simp
  | cons a pre ih =>
    rw [List.cons_append, acquireGo, if_neg (hpre a (by simp))]
    rw [ih (fun x hx => hpre x (by simp [hx]))]
    simp

/-- `Acquire` on a successful bucket scan. -/
theorem acquire_of_go_some (c : ImageCache) (k : ImageKey) (f : Nat)
    (p : CachedImage × List CachedImage) (h : acquireGo k f c.entries = some p) :
    c.acquire k f = (some p.1, {c with entries := p.2}) := by
  unfold ImageCache.acquire
  rw [h]

/-- `Acquire` on a failed bucket scan falls through to `CreateImage`. -/
theorem acquire_of_go_none (c : ImageCache) (k : ImageKey) (f : Nat)
    (h : acquireGo k f c.entries = none) :
    c.acquire k f = c.createImage k f := by
  unfold ImageCache.acquire
  rw [h]

/-- C7: for any well-formed pool (distinct entry identities, all below
the allocation counter), `Acquire(k, f1); Release; Acquire(k, f2)`
returns the same pooled entry — same identity, key and backing
image/view — now marked in use with last-used frame `f2`, and the
second `Acquire` does not grow the pool. -/
theorem acquire_release_acquire (c : ImageCache) (k : ImageKey) (f1 f2 : Nat)
    (e1 : CachedImage)
    (hnodup : (c.entries.map CachedImage.id).Nodup)
    (hbound : ∀ x ∈ c.entries, x.id < c.nextId)
    (hacq : (c.acquire k f1).1 = some e1) :
    (((((c.acquire k f1).2.release e1.id).acquire k f2).1
        = some {e1 with lastUsedFrame := f2}) ∧
     ((((c.acquire k f1).2.release e1.id).acquire k f2).2.entries.length
        = (c.acquire k f1).2.entries.length)) := by
  cases hgo : acquireGo k f1 c.entries with
  | some p =>
    -- reuse path: the scan found a free matching entry
    rw [acquire_of_go_some c k f1 p hgo] at hacq
    simp only [Option.some.injEq] at hacq
    obtain ⟨pre, e, post, hsplit, hpre, hek, heu, hp1, hp2⟩ :=
      acquireGo_eq_some k f1 c.entries p hgo
    have he1 : e1 = {e with inUse := true, lastUsedFrame := f1} := by
      rw [← hacq, hp1]
    have hc1 : (c.acquire k f1).2.entries = pre ++ e1 :: post := by
      rw [acquire_of_go_some c k f1 p hgo]
      simp only []
      rw [hp2, he1]
    -- ids are untouched by the in-place update, so `pre`/`post` do not
    -- contain e1's id
    have hnodup' : ((pre ++ e :: post).map CachedImage.id).Nodup := by
      rw [← hsplit]; exact hnodup
    simp only [List.map_append, List.map_cons] at hnodup'
    rw [List.nodup_append] at hnodup'
    have hpreid : ∀ x ∈ pre, x.id ≠ e.id := by
      intro x hx hcontra
      exact hnodup'.2.2 (List.mem_map_of_mem _ hx)
        (by rw [hcontra]; exact List.mem_cons_self _ _)
    have hpostid : ∀ x ∈ post, x.id ≠ e.id := by
      intro x hx hcontra
      have hcons := hnodup'.2.1
      rw [List.nodup_cons] at hcons
      exact hcons.1 (by rw [← hcontra]; exact List.mem_map_of_mem _ hx)
    have he1id : e1.id = e.id := by rw [he1]
    -- release flips exactly e1 back to free
    have hrel : ((c.acquire k f1).2.release e1.id).entries =
        pre ++ {e with inUse := false, lastUsedFrame := f1} :: post := by
      rw [release_entries, hc1]
      rw [List.map_append, List.map_cons]
      rw [map_eq_self_of pre _ (fun x hx => by
        rw [if_neg]; rw [he1id]; exact hpreid x hx)]
      rw [map_eq_self_of post _ (fun x hx => by
        rw [if_neg]; rw [he1id]; exact hpostid x hx)]
      rw [if_pos rfl, he1]
    -- the second scan finds the same slot again
    have hgo2 : acquireGo k f2 (((c.acquire k f1).2.release e1.id).entries) =
        some ({e with lastUsedFrame := f2, inUse := true},
              pre ++ {e with lastUsedFrame := f2, inUse := true} :: post) := by
      rw [hrel]
      have := acquireGo_skip k f2 pre {e with inUse := false, lastUsedFrame := f1} post
        hpre hek rfl
      simpa using this
    rw [acquire_of_go_some _ k f2 _ hgo2]
    constructor
    · simp only [Option.some.injEq]
      rw [he1]
    · simp only []
      rw [hc1]
      simp
  | none =>
    -- allocation path: a fresh entry was appended at the end
    rw [acquire_of_go_none c k f1 hgo] at hacq
    unfold ImageCache.createImage at hacq
    by_cases hca : c.canAlloc
    · rw [if_pos hca] at hacq
      simp only [Option.some.injEq] at hacq
      have hc1 : (c.acquire k f1).2.entries = c.entries ++ [e1] := by
        rw [acquire_of_go_none c k f1 hgo]
        unfold ImageCache.createImage
        rw [if_pos hca]
        simp only []
        rw [← hacq]
      have he1id : e1.id = c.nextId := by rw [← hacq]
      have hold : ∀ x ∈ c.entries, x.id ≠ e1.id := by
        intro x hx
        rw [he1id]
        exact Nat.ne_of_lt (hbound x hx)
      have hrel : ((c.acquire k f1).2.release e1.id).entries =
          c.entries ++ [{e1 with inUse := false}] := by
        rw [release_entries, hc1, List.map_append]
        rw [map_eq_self_of c.entries _ (fun x hx => by rw [if_neg (hold x hx)])]
        simp
      have hfail : ∀ x ∈ c.entries, ¬(x.key = k ∧ x.inUse = false) :=
        acquireGo_eq_none k f1 c.entries hgo
      have hkey : e1.key = k := by rw [← hacq]
      have hgo2 : acquireGo k f2 (((c.acquire k f1).2.release e1.id).entries) =
          some ({e1 with inUse := true, lastUsedFrame := f2},
                c.entries ++ [{e1 with inUse := true, lastUsedFrame := f2}]) := by
        rw [hrel]
        have := acquireGo_skip k f2 c.entries {e1 with inUse := false} []
          hfail hkey rfl
        simpa using this
      rw [acquire_of_go_some _ k f2 _ hgo2]
      constructor
      · simp only [Option.some.injEq]
        have heq : ({e1 with inUse := true, lastUsedFrame := f2} : CachedImage)
            = {e1 with lastUsedFrame := f2} := by
          have hInUse : e1.inUse = true := by rw [← hacq]
          cases e1
          simp_all
        rw [heq]
      · simp only []
        rw [hc1]
        simp
    · rw [if_neg hca] at hacq
      exact absurd hacq (by simp)

/-- Witness for C7: an empty pool with a working allocator; the first
`Acquire` creates entry 0, and after `Release` the second `Acquire` at
frame 9 returns the same entry without growing the pool. -/
theorem acquire_release_acquire_witness :
    ((((ImageCache.mk [] 0 true).entries.map CachedImage.id).Nodup ∧
      (∀ x ∈ (ImageCache.mk [] 0 true).entries, x.id < (ImageCache.mk [] 0 true).nextId) ∧
      ((ImageCache.mk [] 0 true).acquire ⟨1, 2, 3, 4, 5, 6, 1, 1, 0⟩ 7).1
        = some ⟨0, ⟨1, 2, 3, 4, 5, 6, 1, 1, 0⟩, some 0, some 0, 7, true⟩) ∧
     ((((ImageCache.mk [] 0 true).acquire ⟨1, 2, 3, 4, 5, 6, 1, 1, 0⟩ 7).2.release
          0).acquire ⟨1, 2, 3, 4, 5, 6, 1, 1, 0⟩ 9).1
        = some ⟨0, ⟨1, 2, 3, 4, 5, 6, 1, 1, 0⟩, some 0, some 0, 9, true⟩ ∧
     ((((ImageCache.mk [] 0 true).acquire ⟨1, 2, 3, 4, 5, 6, 1, 1, 0⟩ 7).2.release
          0).acquire ⟨1, 2, 3, 4, 5, 6, 1, 1, 0⟩ 9).2.entries.length
        = ((ImageCache.mk [] 0 true).acquire ⟨1, 2, 3, 4, 5, 6, 1, 1, 0⟩ 7).2.entries.length) := by
  refine ⟨⟨by decide, by decide, by decide⟩, ?_, ?_⟩
  · exact (acquire_release_acquire (ImageCache.mk [] 0 true) ⟨1, 2, 3, 4, 5, 6, 1, 1, 0⟩ 7 9
      ⟨0, ⟨1, 2, 3, 4, 5, 6, 1, 1, 0⟩, some 0, some 0, 7, true⟩
      (by decide) (by decide) (by decide)).1
  · exact (acquire_release_acquire (ImageCache.mk [] 0 true) ⟨1, 2, 3, 4, 5, 6, 1, 1, 0⟩ 7 9
      ⟨0, ⟨1, 2, 3, 4, 5, 6, 1, 1, 0⟩, some 0, some 0, 7, true⟩
      (by decide) (by decide) (by decide)).2

/-! ## Render graph compile/execute lemmas -/

/-- Setting a slot to a value with the same image under `f` leaves the
mapped list unchanged. -/
theorem map_set_cancel {α β : Type} (l : List α) (i : Nat) (v w : α) (f : α → β)
    (h : l[i]? = some w) (hf : f v = f w) : (l.set i v).map f = l.map f := by
  induction l generalizing i with
  | nil => simp at h
  | cons a t ih =>
    cases i with
    | zero =>
      simp only [List.getElem?_cons_zero, Option.some.injEq] at h
      subst h
      simp [hf]
    | succ n =>
      simp only [List.getElem?_cons_succ] at h
      simp [ih n h]

/-- `ComputeLifetimes` touches only the `firstUse`/`lastUse` fields:
any projection ignoring them is preserved. -/
theorem touchRes_map_eq {β : Type} (f : ResourceNode → β)
    (hf : ∀ r a b, f {r with firstUse := a, lastUse := b} = f r)
    (o : Nat) (rs : List ResourceNode) (h : Nat) :
    (touchRes o rs h).map f = rs.map f := by
  unfold touchRes
  cases hr : rs[h]? with
  | none => rfl
  | some r => exact map_set_cancel rs h _ r f hr (hf r _ _)

theorem touchPass_map_eq {β : Type} (f : ResourceNode → β)
    (hf : ∀ r a b, f {r with firstUse := a, lastUse := b} = f r)
    (o : Nat) (pe : PassEntry) (rs : List ResourceNode) :
    (touchPass o pe rs).map f = rs.map f := by
  unfold touchPass
  have hread : ∀ (l : List ResourceAccess) (rs : List ResourceNode),
      ((l.foldl (fun rs a => touchRes o rs a.resource) rs).map f) = rs.map f := by
    intro l
    induction l with
    | nil => intro rs; rfl
    | cons a t ih =>
      intro rs
      rw [List.foldl_cons, ih, touchRes_map_eq f hf]
  rw [hread, hread]

theorem computeLifetimes_map_eq {β : Type} (f : ResourceNode → β)
    (hf : ∀ r a b, f {r with firstUse := a, lastUse := b} = f r)
    (res : List ResourceNode) (passes : List PassEntry) (order : List Nat) :
    (computeLifetimes res passes order).map f = res.map f := by
  unfold computeLifetimes
  have hfold : ∀ (l : List (Nat × Nat)) (rs : List ResourceNode),
      ((l.foldl (fun rs oi => touchPass oi.1 (passAt passes oi.2) rs) rs).map f)
        = rs.map f := by
    intro l
    induction l with
    | nil => intro rs; rfl
    | cons a t ih =>
      intro rs
      rw [List.foldl_cons, ih, touchPass_map_eq f hf]
  rw [hfold, List.map_map]
  apply List.map_congr_left
  intro r _
  exact hf r _ _

/-- The `Acquire` calls made by the allocation loop: one per transient
resource, in table order, each with the key of its description and the
frame number. -/
theorem allocLoop_calls (frame i : Nat) (rs : List ResourceNode) (c : ImageCache) :
    (allocLoop frame i rs c).calls =
      rs.filterMap (fun r =>
        if r.isTransient then some (keyOfDesc r.transientDesc, frame) else none) := by
  induction rs generalizing i c with
  | nil => rfl
  | cons r rest ih =>
    rw [allocLoop]
    by_cases hr : r.isTransient
    · simp only [if_pos hr]
      cases hac : (c.acquire (keyOfDesc r.transientDesc) frame).1 with
      | some e => simp [hac, List.filterMap_cons, hr, ih]
      | none => simp [hac, List.filterMap_cons, hr, ih]
    · simp [hr, List.filterMap_cons, ih]

/-- With a cache that can satisfy no request (empty pool, failing
allocator) the allocation loop changes nothing: nodes, cache and refs
are untouched, only the call log grows. -/
theorem allocLoop_all_fail (frame i : Nat) (rs : List ResourceNode) (c : ImageCache)
    (hce : c.entries = []) (hca : c.canAlloc = false) :
    (allocLoop frame i rs c).resources = rs ∧
    (allocLoop frame i rs c).cache = c ∧
    (allocLoop frame i rs c).refs = [] := by
  induction rs generalizing i with
  | nil => exact ⟨rfl, rfl, rfl⟩
  | cons r rest ih =>
    have hac : c.acquire (keyOfDesc r.transientDesc) frame = (none, c) := by
      unfold ImageCache.acquire
      rw [hce]
      unfold acquireGo ImageCache.createImage
      rw [if_neg (by rw [hca]; exact Bool.false_ne_true)]
    rw [allocLoop]
    by_cases hr : r.isTransient
    · simp only [if_pos hr, hac]
      have := ih (i + 1)
      exact ⟨by rw [this.1], this.2.1, this.2.2⟩
    · simp only [if_neg hr]
      have := ih (i + 1)
      exact ⟨by rw [this.1], this.2.1, this.2.2⟩

/-- C5 counterexample: `Compile` on a graph never initialised
(`mImageCache` null) that contains one transient resource reaches the
null-pointer dereference in `AllocateTransientResources` (modelled as
`none`) — it is a crash, not a logged no-op. -/
theorem compile_before_initialize_crashes :
    ((RenderGraph.mk none 0 [] [] [] (BarrierBatcher.reset 0) false
        []).createImage ⟨37, 4, 4, 0, 1, 1⟩).2.compile = none := by
  decide

/-- C5 amended: `Execute` before `Compile` is a no-op that records no
commands and leaves the graph unchanged; but `Compile` before
`Initialize` is not guarded — on a graph containing a transient
resource it dereferences the null `mImageCache` and crashes. -/
theorem sequencing_error_behaviour (g : RenderGraph) :
    (g.compiled = false → g.execute = (g, [])) ∧
    (g.imageCache = none → g.resources.any (fun r => r.isTransient) = true →
      g.compile = none) := by
  constructor
  · intro h
    unfold RenderGraph.execute
    rw [if_pos h]
  · intro hcache htrans
    unfold RenderGraph.compile
    rw [hcache]
    simp only []
    have : (computeLifetimes g.resources g.passes (compileOrder g.passes)).any
        (fun r => r.isTransient) = true := by
      have hmap := computeLifetimes_map_eq (fun r => r.isTransient)
        (fun r a b => rfl) g.resources g.passes (compileOrder g.passes)
      have h1 : ∀ (l : List ResourceNode),
          l.any (fun r => r.isTransient) = (l.map (fun r => r.isTransient)).any id := by
        intro l
        induction l with
        | nil => rfl
        | cons a t ih => simp [ih]
      rw [h1, hmap, ← h1]
      exact htrans
    rw [if_pos this]

/-- Witness for C5 (amended) at a concrete input: an uninitialised,
uncompiled graph holding one transient resource. -/
theorem sequencing_error_behaviour_witness :
    ((((RenderGraph.mk none 0 [] [] [] (BarrierBatcher.reset 0) false
        []).createImage ⟨37, 4, 4, 0, 1, 1⟩).2.compiled = false ∧
      ((RenderGraph.mk none 0 [] [] [] (BarrierBatcher.reset 0) false
        []).createImage ⟨37, 4, 4, 0, 1, 1⟩).2.imageCache = none ∧
      ((RenderGraph.mk none 0 [] [] [] (BarrierBatcher.reset 0) false
        []).createImage ⟨37, 4, 4, 0, 1, 1⟩).2.resources.any (fun r => r.isTransient)
        = true) ∧
     (((RenderGraph.mk none 0 [] [] [] (BarrierBatcher.reset 0) false
        []).createImage ⟨37, 4, 4, 0, 1, 1⟩).2.execute
        = (((RenderGraph.mk none 0 [] [] [] (BarrierBatcher.reset 0) false
          []).createImage ⟨37, 4, 4, 0, 1, 1⟩).2, []) ∧
      ((RenderGraph.mk none 0 [] [] [] (BarrierBatcher.reset 0) false
        []).createImage ⟨37, 4, 4, 0, 1, 1⟩).2.compile = none)) := by
  refine ⟨⟨by decide, by decide, by decide⟩, ?_, ?_⟩
  · exact (sequencing_error_behaviour
      ((RenderGraph.mk none 0 [] [] [] (BarrierBatcher.reset 0) false
        []).createImage ⟨37, 4, 4, 0, 1, 1⟩).2).1 (by decide)
  · exact (sequencing_error_behaviour
      ((RenderGraph.mk none 0 [] [] [] (BarrierBatcher.reset 0) false
        []).createImage ⟨37, 4, 4, 0, 1, 1⟩).2).2 (by decide) (by decide)

/-- C6 counterexample: a graph with an initialised cache, one transient
resource and no passes at all — the resource is used by no pass, yet
`Compile` makes exactly one `Acquire` call for it (the usage range
gates nothing). -/
theorem compile_acquires_unused_transient :
    (((RenderGraph.mk (some (ImageCache.mk [] 0 true)) 0 [] [] []
        (BarrierBatcher.reset 0) false []).createImage
        ⟨37, 4, 4, 0, 1, 1⟩).2.compile).map Prod.snd
      = some [(keyOfDesc ⟨37, 4, 4, 0, 1, 1⟩, 0)] := by
  decide

/-- C6 amended: `Compile` resolves every transient resource through the
cache, used or not: the `Acquire` call log is exactly one call per
transient resource, in table order, with its description key and the
frame number — the computed [firstUse, lastUse] range does not gate
allocation. -/
theorem compile_acquires_every_transient (g : RenderGraph) (c : ImageCache)
    (hc : g.imageCache = some c) :
    ∃ g', g.compile = some (g', g.resources.filterMap
      (fun r => if r.isTransient then some (keyOfDesc r.transientDesc, g.frameNumber)
                else none)) := by
  have hmap := computeLifetimes_map_eq
    (fun r => if r.isTransient then some (keyOfDesc r.transientDesc, g.frameNumber) else none)
    (fun r a b => rfl) g.resources g.passes (compileOrder g.passes)
  have hcalls : (allocLoop g.frameNumber 0
      (computeLifetimes g.resources g.passes (compileOrder g.passes)) c).calls
      = g.resources.filterMap
        (fun r => if r.isTransient then some (keyOfDesc r.transientDesc, g.frameNumber)
                  else none) := by
    rw [allocLoop_calls]
    calc (computeLifetimes g.resources g.passes (compileOrder g.passes)).filterMap
          (fun r => if r.isTransient then some (keyOfDesc r.transientDesc, g.frameNumber)
                    else none)
        = ((computeLifetimes g.resources g.passes (compileOrder g.passes)).map
            (fun r => if r.isTransient then some (keyOfDesc r.transientDesc, g.frameNumber)
                      else none)).filterMap id := by
          rw [List.filterMap_map]
          rfl
      _ = (g.resources.map
            (fun r => if r.isTransient then some (keyOfDesc r.transientDesc, g.frameNumber)
                      else none)).filterMap id := by rw [hmap]
      _ = g.resources.filterMap
            (fun r => if r.isTransient then some (keyOfDesc r.transientDesc, g.frameNumber)
                      else none) := by
          rw [List.filterMap_map]
          rfl
  unfold RenderGraph.compile
  rw [hc]
  simp only []
  exact ⟨_, by rw [← hcalls]⟩

/-- Witness for C6 (amended): a graph with an initialised empty cache
and two resources, one physical and one transient. -/
theorem compile_acquires_every_transient_witness :
    ((((RenderGraph.mk (some (ImageCache.mk [] 0 true)) 3 [] [] []
        (BarrierBatcher.reset 0) false []).addImage (some 9) (some 9) 2 1
        1).2.createImage ⟨37, 4, 4, 0, 1, 1⟩).2.imageCache
      = some (ImageCache.mk [] 0 true)) ∧
    (∃ g', (((RenderGraph.mk (some (ImageCache.mk [] 0 true)) 3 [] [] []
        (BarrierBatcher.reset 0) false []).addImage (some 9) (some 9) 2 1
        1).2.createImage ⟨37, 4, 4, 0, 1, 1⟩).2.compile
      = some (g', (((RenderGraph.mk (some (ImageCache.mk [] 0 true)) 3 [] [] []
          (BarrierBatcher.reset 0) false []).addImage (some 9) (some 9) 2 1
          1).2.createImage ⟨37, 4, 4, 0, 1, 1⟩).2.resources.filterMap
        (fun r => if r.isTransient then some (keyOfDesc r.transientDesc,
            (((RenderGraph.mk (some (ImageCache.mk [] 0 true)) 3 [] [] []
              (BarrierBatcher.reset 0) false []).addImage (some 9) (some 9) 2 1
              1).2.createImage ⟨37, 4, 4, 0, 1, 1⟩).2.frameNumber)
          else none))) := by
  refine ⟨by decide, ?_⟩
  exact compile_acquires_every_transient
    (((RenderGraph.mk (some (ImageCache.mk [] 0 true)) 3 [] [] []
      (BarrierBatcher.reset 0) false []).addImage (some 9) (some 9) 2 1
      1).2.createImage ⟨37, 4, 4, 0, 1, 1⟩).2 (ImageCache.mk [] 0 true) (by decide)

/-- Projection extracting pass invocations from recorded commands. -/
def runPassIdx : GpuCmd → Option Nat
  | GpuCmd.runPass i => some i
  | GpuCmd.pipelineBarrier _ _ => none

/-- `Flush` emits no pass invocation. -/
theorem flush_no_runPass (b : BarrierBatcher) :
    (b.flush).2.filterMap runPassIdx = [] := by
  unfold BarrierBatcher.flush
  split
  · rfl
  · rfl

/-- The `Execute` walk records exactly one pass invocation per
execution-order slot, in order. -/
theorem execPass_fold_runs (resources : List ResourceNode) (passes : List PassEntry)
    (order : List Nat) (b : BarrierBatcher) (cmds : List GpuCmd) :
    ((order.foldl (execPass resources passes) (b, cmds)).2).filterMap runPassIdx
      = cmds.filterMap runPassIdx ++ order := by
  induction order generalizing b cmds with
  | nil => simp
  | cons p rest ih =>
    rw [List.foldl_cons]
    have hstep : execPass resources passes (b, cmds) p =
        (((passAt passes p).writes.foldl (transitionAccess resources)
            ((passAt passes p).reads.foldl (transitionAccess resources) b)).flush.1,
         cmds ++ ((passAt passes p).writes.foldl (transitionAccess resources)
            ((passAt passes p).reads.foldl (transitionAccess resources) b)).flush.2
           ++ [GpuCmd.runPass p]) := rfl
    rw [hstep, ih]
    rw [List.filterMap_append, List.filterMap_append, flush_no_runPass]
    simp [runPassIdx]

/-- On a compiled graph, `Execute` invokes exactly the passes of
`mExecutionOrder`, in order. -/
theorem execute_records_all (g : RenderGraph) (h : g.compiled = true) :
    (g.execute).2.filterMap runPassIdx = g.executionOrder := by
  unfold RenderGraph.execute
  rw [if_neg (by rw [h]; simp)]
  simp only []
  rw [execPass_fold_runs]
  rfl

/-! ## Kahn's algorithm: correctness of `Compile`'s topological sort -/

theorem getD_set_self (l : List Nat) (i a : Nat) (h : i < l.length) :
    (l.set i a).getD i 0 = a := by
  rw [List.getD_eq_getElem _ _ (by simpa using h)]
  exact List.getElem_set_self (by simpa using h)

theorem getD_set_ne (l : List Nat) (i j a : Nat) (h : i ≠ j) :
    (l.set i a).getD j 0 = l.getD j 0 := by
  by_cases hj : j < l.length
  · rw [List.getD_eq_getElem _ _ (by simpa using hj), List.getD_eq_getElem _ _ hj]
    exact List.getElem_set_ne h _
  · rw [List.getD_eq_default _ _ (by simpa using le_of_not_lt hj),
      List.getD_eq_default _ _ (le_of_not_lt hj)]

theorem sum_set_getD (l : List Nat) (i a : Nat) (h : i < l.length) :
    (l.set i a).sum + l.getD i 0 = l.sum + a := by
  induction l generalizing i with
  | nil => simp at h
  | cons x xs ih =>
    cases i with
    | zero => simp [Nat.add_comm, Nat.add_assoc, Nat.add_left_comm]
    | succ n =>
      have h' : n < xs.length := by simpa using h
      simp only [List.set_cons_succ, List.sum_cons, List.getD_cons_succ]
      have := ih n h'
      omega

theorem sum_set_le (l : List Nat) (i : Nat) :
    (l.set i (l.getD i 0 - 1)).sum ≤ l.sum := by
  by_cases h : i < l.length
  · have := sum_set_getD l i (l.getD i 0 - 1) h
    omega
  · rw [List.set_eq_of_length_le (le_of_not_lt h)]

/-- Full specification of the inner decrement loop: counters drop by
the number of edges into each node, a node is pushed exactly when its
counter reaches zero through these decrements, pushes are distinct, and
the loop measure (counter sum + pushes) does not grow. -/
theorem decrement_spec (adjp : List Nat) (counts : List Nat)
    (H : ∀ v ∈ adjp, v < counts.length ∧ adjp.count v ≤ counts.getD v 0) :
    ((decrementAll adjp counts).1.length = counts.length) ∧
    (∀ v, (decrementAll adjp counts).1.getD v 0 = counts.getD v 0 - adjp.count v) ∧
    (∀ v, v ∈ (decrementAll adjp counts).2 ↔
        (1 ≤ adjp.count v ∧ counts.getD v 0 = adjp.count v)) ∧
    ((decrementAll adjp counts).2.Nodup) ∧
    ((decrementAll adjp counts).1.sum + (decrementAll adjp counts).2.length ≤ counts.sum) := by
  induction adjp generalizing counts with
  | nil => simp [decrementAll]
  | cons next rest ih =>
    have hnext := H next (by simp)
    have hnextc : rest.count next + 1 ≤ counts.getD next 0 := by
      have := hnext.2
      rw [List.count_cons_self] at this
      exact this
    have hlen₁ : (counts.set next (counts.getD next 0 - 1)).length = counts.length :=
      List.length_set counts next (counts.getD next 0 - 1)
    have hsetself : (counts.set next (counts.getD next 0 - 1)).getD next 0
        = counts.getD next 0 - 1 := getD_set_self counts next _ hnext.1
    have hsetne : ∀ v, v ≠ next →
        (counts.set next (counts.getD next 0 - 1)).getD v 0 = counts.getD v 0 :=
      fun v hv => getD_set_ne counts next v _ (fun hcontra => hv hcontra.symm)
    have hcountd : ∀ v, v ≠ next → (next :: rest).count v = rest.count v :=
      fun v hv => List.count_cons_of_ne hv _
    have Hrest : ∀ v ∈ rest,
        v < (counts.set next (counts.getD next 0 - 1)).length ∧
        rest.count v ≤ (counts.set next (counts.getD next 0 - 1)).getD v 0 := by
      intro v hv
      have hvH := H v (by simp [hv])
      refine ⟨by rw [hlen₁]; exact hvH.1, ?_⟩
      by_cases hveq : v = next
      · subst hveq
        rw [hsetself]
        omega
      · rw [hsetne v hveq]
        have h2 := hvH.2
        rw [hcountd v hveq] at h2
        exact h2
    obtain ⟨ih1, ih2, ih3, ih4, ih5⟩ := ih (counts.set next (counts.getD next 0 - 1)) Hrest
    have hD : decrementAll (next :: rest) counts =
        (if counts.getD next 0 = 1 then
          ((decrementAll rest (counts.set next (counts.getD next 0 - 1))).1,
           next :: (decrementAll rest (counts.set next (counts.getD next 0 - 1))).2)
         else decrementAll rest (counts.set next (counts.getD next 0 - 1))) := by
      rw [decrementAll]
    by_cases hc1 : counts.getD next 0 = 1
    · rw [hD, if_pos hc1]
      have hrc : rest.count next = 0 := by omega
      refine ⟨by rw [ih1, hlen₁], ?_, ?_, ?_, ?_⟩
      · intro v
        rw [ih2 v]
        by_cases hveq : v = next
        · subst hveq
          rw [hsetself, List.count_cons_self]
          omega
        · rw [hsetne v hveq, hcountd v hveq]
      · intro v
        by_cases hveq : v = next
        · subst hveq
          simp only [List.mem_cons, true_or, true_iff]
          rw [List.count_cons_self]
          omega
        · have hmem : (v ∈ next :: (decrementAll rest (counts.set next (counts.getD next 0 - 1))).2)
              ↔ v ∈ (decrementAll rest (counts.set next (counts.getD next 0 - 1))).2 := by
            simp [hveq]
          rw [hmem, ih3 v, hsetne v hveq, hcountd v hveq]
      · rw [List.nodup_cons]
        refine ⟨?_, ih4⟩
        rw [ih3 next, hsetself]
        omega
      · have hsum := sum_set_getD counts next (counts.getD next 0 - 1) hnext.1
        simp only [List.length_cons]
        omega
    · rw [hD, if_neg hc1]
      refine ⟨by rw [ih1, hlen₁], ?_, ?_, ih4, ?_⟩
      · intro v
        rw [ih2 v]
        by_cases hveq : v = next
        · subst hveq
          rw [hsetself, List.count_cons_self]
          omega
        · rw [hsetne v hveq, hcountd v hveq]
      · intro v
        rw [ih3 v]
        by_cases hveq : v = next
        · subst hveq
          rw [hsetself, List.count_cons_self]
          omega
        · rw [hsetne v hveq, hcountd v hveq]
      · have hle := sum_set_le counts next
        omega

/-- The number of edges into `v` whose source has not yet been emitted:
the value `inDegree[v]` holds between loop iterations. -/
def remCount (E : List (Nat × Nat)) (order : List Nat) (v : Nat) : Nat :=
  E.countP (fun e => e.2 == v && !(order.contains e.1))

theorem remCount_nil (E : List (Nat × Nat)) (v : Nat) :
    remCount E [] v = inDeg E v := by
  unfold remCount inDeg
  simp

theorem contains_false_iff (l : List Nat) (a : Nat) :
    l.contains a = false ↔ a ∉ l := by
  rw [Bool.eq_false_iff]
  constructor
  · intro h hmem
    exact h (List.elem_iff.mpr hmem)
  · intro h hc
    exact h (List.elem_iff.mp hc)

/-- Emitting `p` removes exactly the edges out of `p` from every
remaining count. -/
theorem remCount_append (E : List (Nat × Nat)) (order : List Nat) (p v : Nat)
    (hp : p ∉ order) :
    remCount E order v =
      remCount E (order ++ [p]) v + E.countP (fun e => e.1 == p && e.2 == v) := by
  unfold remCount
  induction E with
  | nil => rfl
  | cons e E ih =>
    rw [List.countP_cons, List.countP_cons, List.countP_cons, ih]
    have hcontainsl : ∀ (l : List Nat) (a : Nat), a ∈ l → l.contains a = true :=
      fun l a h => List.elem_iff.mpr h
    have hhead : (if (e.2 == v && !(order.contains e.1)) = true then 1 else 0) =
        (if (e.2 == v && !((order ++ [p]).contains e.1)) = true then 1 else 0) +
        (if (e.1 == p && e.2 == v) = true then 1 else 0) := by
      by_cases h2 : e.2 = v
      · by_cases hmem : e.1 ∈ order
        · have c1 := hcontainsl order e.1 hmem
          have c2 := hcontainsl (order ++ [p]) e.1 (List.mem_append_left _ hmem)
          have c3 : ¬(e.1 = p) := fun hc => hp (hc ▸ hmem)
          simp [h2, c1, c2, c3]
        · by_cases hep : e.1 = p
          · have c1 : order.contains e.1 = false := (contains_false_iff _ _).mpr hmem
            have c2 := hcontainsl (order ++ [p]) e.1 (by simp [hep])
            simp [h2, c1, c2, hep, hp]
          · have c1 : order.contains e.1 = false := (contains_false_iff _ _).mpr hmem
            have c2 : (order ++ [p]).contains e.1 = false :=
              (contains_false_iff _ _).mpr (by simp [hmem, hep])
            simp [h2, c1, c2, hep]
      · simp [h2]
    omega

theorem remCount_mono (E : List (Nat × Nat)) (order : List Nat) (p v : Nat) :
    remCount E (order ++ [p]) v ≤ remCount E order v := by
  unfold remCount
  apply List.countP_mono_left
  intro e _ he
  simp only [Bool.and_eq_true, beq_iff_eq, Bool.not_eq_true'] at he ⊢
  refine ⟨he.1, ?_⟩
  rw [contains_false_iff] at he ⊢
  intro hmem
  exact he.2 (List.mem_append_left _ hmem)

/-- A zero remaining count means every edge into `v` has its source
already emitted. -/
theorem remCount_zero_iff (E : List (Nat × Nat)) (order : List Nat) (v : Nat) :
    remCount E order v = 0 ↔ ∀ e ∈ E, e.2 = v → e.1 ∈ order := by
  unfold remCount
  rw [List.countP_eq_zero]
  constructor
  · intro h e he h2
    have hne := h e he
    by_contra hmem
    apply hne
    simp only [Bool.and_eq_true, beq_iff_eq, Bool.not_eq_true']
    exact ⟨h2, (contains_false_iff order e.1).mpr hmem⟩
  · intro h e he
    simp only [Bool.and_eq_true, beq_iff_eq, Bool.not_eq_true', not_and]
    intro h2 hcf
    exact absurd (h e he h2) ((contains_false_iff order e.1).mp hcf)

/-- The successor multiplicity in `adj[p]` counts the edges `p → v`. -/
theorem adjList_count (E : List (Nat × Nat)) (p v : Nat) :
    (adjList E p).count v = E.countP (fun e => e.1 == p && e.2 == v) := by
  unfold adjList
  induction E with
  | nil => rfl
  | cons e E ih =>
    rw [List.countP_cons, List.filter_cons]
    by_cases h1 : e.1 = p
    · simp only [h1]
      simp only [beq_self_eq_true, if_pos, List.map_cons]
      by_cases h2 : e.2 = v
      · rw [h2, List.count_cons_self]
        simp [ih]
      · rw [List.count_cons_of_ne (fun hcontra => h2 hcontra.symm)]
        simp [h2, ih]
    · simp [h1, ih]

/-- Membership in `adj[p]`. -/
theorem adjList_mem (E : List (Nat × Nat)) (p v : Nat) :
    v ∈ adjList E p ↔ ∃ e ∈ E, e.1 = p ∧ e.2 = v := by
  unfold adjList
  simp only [List.mem_map, List.mem_filter, beq_iff_eq]
  constructor
  · rintro ⟨e, ⟨he, h1⟩, h2⟩
    exact ⟨e, he, h1, h2⟩
  · rintro ⟨e, he, h1, h2⟩
    exact ⟨e, ⟨he, h1⟩, h2⟩

/-- The invariant of Kahn's loop between iterations: counters equal
the number of unemitted predecessors, a node has been emitted or queued
exactly when its counter is zero, nothing is duplicated, and the order
built so far lists every edge source before its target. -/
structure KahnInv (n : Nat) (E : List (Nat × Nat)) (queue counts order : List Nat) : Prop where
  counts_len : counts.length = n
  queue_lt : ∀ v ∈ queue, v < n
  order_lt : ∀ v ∈ order, v < n
  counts_eq : ∀ v, v < n → counts.getD v 0 = remCount E order v
  order_nodup : order.Nodup
  queue_nodup : queue.Nodup
  disjoint_qo : ∀ v ∈ queue, v ∉ order
  reached : ∀ v, v < n → (remCount E order v = 0 ↔ (v ∈ order ∨ v ∈ queue))
  sorted_inv : ∀ e ∈ E, e.2 ∈ order → List.Sublist [e.1, e.2] order

/-- The invariant holds on the initial state built by `Compile`. -/
theorem kahnInv_init (n : Nat) (E : List (Nat × Nat)) :
    KahnInv n E ((List.range n).filter (fun i => inDeg E i == 0))
      ((List.range n).map (inDeg E)) [] := by
  have hgetD : ∀ v, v < n → ((List.range n).map (inDeg E)).getD v 0 = inDeg E v := by
    intro v hv
    have hlen : v < ((List.range n).map (inDeg E)).length := by simpa using hv
    rw [List.getD_eq_getElem _ _ hlen]
    simp
  refine ⟨by simp, ?_, by simp, ?_, List.nodup_nil, ?_, by simp, ?_, by simp⟩
  · intro v hv
    have := List.mem_filter.mp hv
    simpa using this.1
  · intro v hv
    rw [hgetD v hv, remCount_nil]
  · exact List.Nodup.filter _ (List.nodup_range n)
  · intro v hv
    rw [remCount_nil]
    simp only [List.not_mem_nil, false_or]
    constructor
    · intro h0
      exact List.mem_filter.mpr ⟨by simpa using hv, by simpa using h0⟩
    · intro hmem
      have := (List.mem_filter.mp hmem).2
      simpa using this

theorem sum_map_add {α : Type} (l : List α) (f g : α → Nat) :
    (l.map (fun x => f x + g x)).sum = (l.map f).sum + (l.map g).sum := by
  induction l with
  | nil => rfl
  | cons a t ih =>
    simp only [List.map_cons, List.sum_cons, ih]
    omega

theorem sum_indicator_le_one (l : List Nat) (a : Nat) (h : l.Nodup) :
    (l.map (fun v => if a = v then 1 else 0)).sum ≤ 1 := by
  induction l with
  | nil => simp
  | cons x t ih =>
    rw [List.nodup_cons] at h
    simp only [List.map_cons, List.sum_cons]
    by_cases hax : a = x
    · subst hax
      have hz : (t.map (fun v => if a = v then 1 else 0)).sum = 0 := by
        apply List.sum_eq_zero
        intro y hy
        obtain ⟨v, hv, hvy⟩ := List.mem_map.mp hy
        have : ¬(a = v) := fun hcontra => h.1 (hcontra ▸ hv)
        rw [← hvy, if_neg this]
      simp [hz]
    · simp only [if_neg hax, Nat.zero_add]
      exact ih h.2

/-- The total in-degree over the pass range is at most the edge count,
so `n + |E|` fuel always drains the queue. -/
theorem sum_inDeg_le (n : Nat) (E : List (Nat × Nat)) :
    ((List.range n).map (inDeg E)).sum ≤ E.length := by
  induction E with
  | nil =>
    have h0 : ∀ v, inDeg ([] : List (Nat × Nat)) v = 0 := fun v => rfl
    have : (List.range n).map (inDeg ([] : List (Nat × Nat)))
        = (List.range n).map (fun _ => 0) := by
      apply List.map_congr_left
      intro v _
      exact h0 v
    rw [this]
    simp
  | cons e E ih =>
    have hstep : (List.range n).map (inDeg (e :: E))
        = (List.range n).map (fun v => inDeg E v + (if e.2 = v then 1 else 0)) := by
      apply List.map_congr_left
      intro v _
      unfold inDeg
      rw [List.countP_cons]
      by_cases h : e.2 = v <;> simp [h]
    rw [hstep, sum_map_add]
    have hind := sum_indicator_le_one (List.range n) e.2 (List.nodup_range n)
    simp only [List.length_cons]
    omega

/-- One iteration of Kahn's loop preserves the invariant and strictly
decreases the measure (queue length + counter sum). -/
theorem kahnInv_step (n : Nat) (E : List (Nat × Nat)) (p : Nat)
    (rest counts order : List Nat)
    (HE : ∀ e ∈ E, e.1 < n ∧ e.2 < n)
    (inv : KahnInv n E (p :: rest) counts order) :
    KahnInv n E (rest ++ (decrementAll (adjList E p) counts).2)
      (decrementAll (adjList E p) counts).1 (order ++ [p]) ∧
    (rest ++ (decrementAll (adjList E p) counts).2).length +
        (decrementAll (adjList E p) counts).1.sum <
      (p :: rest).length + counts.sum := by
  have hpn : p < n := inv.queue_lt p (List.mem_cons_self p rest)
  have hpo : p ∉ order := inv.disjoint_qo p (List.mem_cons_self p rest)
  have hp0 : remCount E order p = 0 :=
    (inv.reached p hpn).mpr (Or.inr (List.mem_cons_self p rest))
  have hadj_lt : ∀ v ∈ adjList E p, v < n := by
    intro v hv
    obtain ⟨e, he, _, h2⟩ := (adjList_mem E p v).mp hv
    rw [← h2]
    exact (HE e he).2
  have H : ∀ v ∈ adjList E p,
      v < counts.length ∧ (adjList E p).count v ≤ counts.getD v 0 := by
    intro v hv
    have hvn : v < n := hadj_lt v hv
    refine ⟨by rw [inv.counts_len]; exact hvn, ?_⟩
    rw [adjList_count, inv.counts_eq v hvn]
    unfold remCount
    apply List.countP_mono_left
    intro e _ hpe
    simp only [Bool.and_eq_true, beq_iff_eq, Bool.not_eq_true'] at hpe ⊢
    exact ⟨hpe.2, (contains_false_iff order e.1).mpr (hpe.1 ▸ hpo)⟩
  obtain ⟨hd1, hd2, hd3, hd4, hd5⟩ := decrement_spec (adjList E p) counts H
  -- counters after the iteration equal the remaining counts past `p`
  have hnew_counts : ∀ v, v < n →
      (decrementAll (adjList E p) counts).1.getD v 0 = remCount E (order ++ [p]) v := by
    intro v hvn
    rw [hd2 v, adjList_count, inv.counts_eq v hvn]
    have := remCount_append E order p v hpo
    omega
  -- characterisation of freshly pushed nodes
  have hready : ∀ v, v ∈ (decrementAll (adjList E p) counts).2 ↔
      (1 ≤ (adjList E p).count v ∧ counts.getD v 0 = (adjList E p).count v) := hd3
  have hready_lt : ∀ v ∈ (decrementAll (adjList E p) counts).2, v < n := by
    intro v hv
    have := (hready v).mp hv
    exact hadj_lt v (List.count_pos_iff.mp this.1)
  have hready_rem : ∀ v ∈ (decrementAll (adjList E p) counts).2,
      remCount E order v ≠ 0 ∧ remCount E (order ++ [p]) v = 0 := by
    intro v hv
    have hvn := hready_lt v hv
    have hch := (hready v).mp hv
    constructor
    · rw [← inv.counts_eq v hvn]
      omega
    · rw [← hnew_counts v hvn, hd2 v, adjList_count, ← adjList_count E p v]
      omega
  have hready_not_old : ∀ v ∈ (decrementAll (adjList E p) counts).2,
      v ∉ order ∧ v ∉ p :: rest := by
    intro v hv
    have hvn := hready_lt v hv
    have hne := (hready_rem v hv).1
    have := inv.reached v hvn
    constructor
    · intro hcontra
      exact hne (this.mpr (Or.inl hcontra))
    · intro hcontra
      exact hne (this.mpr (Or.inr hcontra))
  have hq_lt : ∀ v ∈ rest, v < n := fun v hv => inv.queue_lt v (by simp [hv])
  have hrest_nodup : rest.Nodup := (List.nodup_cons.mp inv.queue_nodup).2
  have hp_rest : p ∉ rest := (List.nodup_cons.mp inv.queue_nodup).1
  refine ⟨⟨?_, ?_, ?_, ?_, ?_, ?_, ?_, ?_, ?_⟩, ?_⟩
  · rw [hd1, inv.counts_len]
  · intro v hv
    rcases List.mem_append.mp hv with hv' | hv'
    · exact hq_lt v hv'
    · exact hready_lt v hv'
  · intro v hv
    rcases List.mem_append.mp hv with hv' | hv'
    · exact inv.order_lt v hv'
    · rw [List.mem_singleton.mp hv']
      exact hpn
  · exact hnew_counts
  · rw [List.nodup_append]
    refine ⟨inv.order_nodup, List.nodup_singleton p, ?_⟩
    intro a ha hap
    rw [List.mem_singleton.mp hap] at ha
    exact hpo ha
  · rw [List.nodup_append]
    refine ⟨hrest_nodup, hd4, ?_⟩
    intro a ha hready_a
    exact (hready_not_old a hready_a).2 (by simp [ha])
  · intro v hv
    rcases List.mem_append.mp hv with hv' | hv'
    · intro hcontra
      rcases List.mem_append.mp hcontra with hvo | hvp
      · exact inv.disjoint_qo v (by simp [hv']) hvo
      · rw [List.mem_singleton.mp hvp] at hv'
        exact hp_rest hv'
    · intro hcontra
      rcases List.mem_append.mp hcontra with hvo | hvp
      · exact (hready_not_old v hv').1 hvo
      · exact (hready_not_old v hv').2
          (by rw [List.mem_singleton.mp hvp]; exact List.mem_cons_self p rest)
  · intro v hvn
    constructor
    · intro h0
      by_cases hold : remCount E order v = 0
      · rcases (inv.reached v hvn).mp hold with hvo | hvq
        · exact Or.inl (List.mem_append_left _ hvo)
        · rcases List.mem_cons.mp hvq with rfl | hvr
          · exact Or.inl (List.mem_append_right _ (List.mem_singleton_self v))
          · exact Or.inr (List.mem_append_left _ hvr)
      · refine Or.inr (List.mem_append_right _ ?_)
        rw [hready v]
        have hv1 := inv.counts_eq v hvn
        have hv2 := hnew_counts v hvn
        have hv3 := hd2 v
        have hge : 1 ≤ (adjList E p).count v := by omega
        have hle := (H v (List.count_pos_iff.mp hge)).2
        omega
    · intro hmem
      rcases hmem with hvo | hvq
      · rcases List.mem_append.mp hvo with hvo' | hvp
        · have h0 := (inv.reached v hvn).mpr (Or.inl hvo')
          have := remCount_mono E order p v
          omega
        · rw [List.mem_singleton.mp hvp]
          have := remCount_mono E order p p
          omega
      · rcases List.mem_append.mp hvq with hvr | hvready
        · have h0 := (inv.reached v hvn).mpr (Or.inr (by simp [hvr]))
          have := remCount_mono E order p v
          omega
        · exact (hready_rem v hvready).2
  · intro e he h2
    rcases List.mem_append.mp h2 with h2o | h2p
    · exact (inv.sorted_inv e he h2o).trans (List.sublist_append_left order [p])
    · have hep : e.2 = p := List.mem_singleton.mp h2p
      have he1 : e.1 ∈ order := by
        have := (remCount_zero_iff E order p).mp hp0 e he hep
        exact this
      have h1 : List.Sublist [e.1] order := List.singleton_sublist.mpr he1
      have h2 : List.Sublist [e.2] [p] := by
        rw [hep]
      have := List.Sublist.append h1 h2
      simpa using this
  · have hlen := List.length_append rest (decrementAll (adjList E p) counts).2
    simp only [List.length_cons]
    omega

/-- With fuel at least the loop measure, the queue drains completely
and the invariant holds for the final order. -/
theorem kahnLoop_inv (n : Nat) (E : List (Nat × Nat))
    (HE : ∀ e ∈ E, e.1 < n ∧ e.2 < n) :
    ∀ (fuel : Nat) (queue counts order : List Nat),
      KahnInv n E queue counts order →
      queue.length + counts.sum ≤ fuel →
      ∃ countsF, KahnInv n E [] countsF (kahnLoop (adjList E) fuel queue counts order) := by
  intro fuel
  induction fuel with
  | zero =>
    intro queue counts order inv hfuel
    cases queue with
    | nil => exact ⟨counts, inv⟩
    | cons p rest => simp at hfuel
  | succ fuel ih =>
    intro queue counts order inv hfuel
    cases queue with
    | nil => exact ⟨counts, inv⟩
    | cons p rest =>
      obtain ⟨inv', hdec⟩ := kahnInv_step n E p rest counts order HE inv
      rw [kahnLoop]
      exact ih _ _ _ inv' (by omega)

/-- The final invariant for `topoSort` as `Compile` runs it. -/
theorem topoSort_inv (n : Nat) (E : List (Nat × Nat))
    (HE : ∀ e ∈ E, e.1 < n ∧ e.2 < n) :
    ∃ countsF, KahnInv n E [] countsF (topoSort n E) := by
  unfold topoSort
  apply kahnLoop_inv n E HE (n + E.length) _ _ _ (kahnInv_init n E)
  have h1 : ((List.range n).filter (fun i => inDeg E i == 0)).length ≤ n := by
    have := List.length_filter_le (fun i => inDeg E i == 0) (List.range n)
    simpa using this
  have h2 := sum_inDeg_le n E
  omega

/-- A duplicate-free list of `n` values below `n` contains every such
value. -/
theorem nodup_lt_full (l : List Nat) (n : Nat) (hnd : l.Nodup)
    (hlt : ∀ x ∈ l, x < n) (hlen : l.length = n) : ∀ x, x < n → x ∈ l := by
  intro x hx
  have hsub : l.toFinset ⊆ Finset.range n := by
    intro a ha
    rw [List.mem_toFinset] at ha
    exact Finset.mem_range.mpr (hlt a ha)
  have hcard : l.toFinset.card = n := by
    rw [List.toFinset_card_of_nodup hnd, hlen]
  have heq : l.toFinset = Finset.range n :=
    Finset.eq_of_subset_of_card_le hsub (by rw [hcard, Finset.card_range])
  rw [← List.mem_toFinset, heq]
  exact Finset.mem_range.mpr hx

/-- In a duplicate-free list, a two-element sublist fixes the relative
position of its elements. -/
theorem indexOf_lt_of_pair_sublist {a b : Nat} {l : List Nat}
    (hnd : l.Nodup) (hs : List.Sublist [a, b] l) :
    List.indexOf a l < List.indexOf b l := by
  induction l with
  | nil => cases hs
  | cons x xs ih =>
    have hx : x ∉ xs := (List.nodup_cons.mp hnd).1
    cases hs with
    | cons _ h2 =>
      have ha : a ∈ xs := List.Sublist.subset h2 (by simp)
      have hb : b ∈ xs := List.Sublist.subset h2 (by simp)
      rw [List.indexOf_cons_ne xs (show x ≠ a by rintro rfl; exact hx ha)]
      rw [List.indexOf_cons_ne xs (show x ≠ b by rintro rfl; exact hx hb)]
      exact Nat.succ_lt_succ (ih (List.nodup_cons.mp hnd).2 h2)
    | cons₂ h2 =>
      have hb : b ∈ xs := List.Sublist.subset (by assumption) (by simp)
      rw [List.indexOf_cons_self]
      rw [List.indexOf_cons_ne xs (show a ≠ b by rintro rfl; exact hx hb)]
      exact Nat.succ_pos _

/-- Walking dependency edges backwards strictly decreases the position
in any order satisfying the sortedness invariant. -/
theorem transGen_indexOf_lt (E : List (Nat × Nat)) (order : List Nat)
    (hnd : order.Nodup)
    (hsorted : ∀ e ∈ E, e.2 ∈ order → List.Sublist [e.1, e.2] order)
    {a b : Nat} (hab : Relation.TransGen (fun x y => (x, y) ∈ E) a b) :
    b ∈ order → (a ∈ order ∧ List.indexOf a order < List.indexOf b order) := by
  induction hab with
  | single he =>
    intro hb
    have hsub := hsorted _ he hb
    exact ⟨hsub.subset (by simp), indexOf_lt_of_pair_sublist hnd hsub⟩
  | tail _ he ih =>
    intro hb
    have hsub := hsorted _ he hb
    have hc := hsub.subset (List.mem_cons_self _ _)
    obtain ⟨ha, hlt⟩ := ih hc
    exact ⟨ha, lt_trans hlt (indexOf_lt_of_pair_sublist hnd hsub)⟩

/-- Pigeonhole on a finite set in which every node has an in-set
predecessor: some node lies on a cycle. -/
theorem exists_cycle_of_forall_pred (R : Nat → Nat → Prop) (S : Finset Nat)
    (hne : S.Nonempty) (hpred : ∀ v ∈ S, ∃ u ∈ S, R u v) :
    ∃ v, Relation.TransGen R v v := by
  classical
  obtain ⟨v₀, hv₀⟩ := hne
  let f : {x // x ∈ S} → {x // x ∈ S} := fun x =>
    ⟨Classical.choose (hpred x.1 x.2), (Classical.choose_spec (hpred x.1 x.2)).1⟩
  have hf : ∀ x : {x // x ∈ S}, R (f x).1 x.1 := fun x =>
    (Classical.choose_spec (hpred x.1 x.2)).2
  have hiter : ∀ (m : Nat), 1 ≤ m → ∀ x : {x // x ∈ S},
      Relation.TransGen R (f^[m] x).1 x.1 := by
    intro m
    induction m with
    | zero => omega
    | succ m ihm =>
      intro _ x
      cases Nat.eq_zero_or_pos m with
      | inl hm0 =>
        subst hm0
        rw [Function.iterate_one]
        exact Relation.TransGen.single (hf x)
      | inr hm1 =>
        rw [Function.iterate_succ_apply']
        exact Relation.TransGen.head (hf (f^[m] x)) (ihm hm1 x)
  have hni := Finite.exists_ne_map_eq_of_infinite (fun m : Nat => f^[m] ⟨v₀, hv₀⟩)
  obtain ⟨i, j, hij, hfij⟩ := hni
  rcases Nat.lt_or_ge i j with hlt | hge
  · refine ⟨(f^[i] ⟨v₀, hv₀⟩).1, ?_⟩
    have hcomp : f^[j - i] (f^[i] ⟨v₀, hv₀⟩) = f^[i] ⟨v₀, hv₀⟩ := by
      rw [← Function.iterate_add_apply]
      rw [show j - i + i = j by omega]
      exact hfij.symm
    have := hiter (j - i) (by omega) (f^[i] ⟨v₀, hv₀⟩)
    rw [hcomp] at this
    exact this
  · have hlt' : j < i := by omega
    refine ⟨(f^[j] ⟨v₀, hv₀⟩).1, ?_⟩
    have hcomp : f^[i - j] (f^[j] ⟨v₀, hv₀⟩) = f^[j] ⟨v₀, hv₀⟩ := by
      rw [← Function.iterate_add_apply]
      rw [show i - j + j = i by omega]
      exact hfij
    have := hiter (i - j) (by omega) (f^[j] ⟨v₀, hv₀⟩)
    rw [hcomp] at this
    exact this

/-- Membership in the edge list built by `Compile`'s first loop. -/
theorem dependsEdgesFrom_mem (passes : List PassEntry) :
    ∀ (k u v : Nat), (u, v) ∈ dependsEdgesFrom k passes ↔
      ∃ j, ∃ h : j < passes.length, v = k + j ∧
        ∃ d ∈ (passes.get ⟨j, h⟩).dependencies, d.dependency = u := by
  induction passes with
  | nil => simp [dependsEdgesFrom]
  | cons pe rest ih =>
    intro k u v
    rw [dependsEdgesFrom]
    rw [List.mem_append]
    constructor
    · intro h
      rcases h with h | h
      · obtain ⟨d, hd, hdv⟩ := List.mem_map.mp h
        refine ⟨0, by simp, ?_, d, ?_, ?_⟩
        · have := congrArg Prod.snd hdv
          simp at this
          omega
        · simpa using hd
        · have := congrArg Prod.fst hdv
          simpa using this
      · obtain ⟨j, hj, hv, d, hd, hdu⟩ := (ih (k + 1) u v).mp h
        refine ⟨j + 1, by simpa using hj, by omega, d, ?_, hdu⟩
        simpa using hd
    · rintro ⟨j, hj, hv, d, hd, hdu⟩
      cases j with
      | zero =>
        refine Or.inl (List.mem_map.mpr ⟨d, by simpa using hd, ?_⟩)
        rw [hdu]
        have : v = k := by omega
        rw [this]
      | succ j' =>
        refine Or.inr ((ih (k + 1) u v).mpr ⟨j', by simpa using hj, by omega, d, ?_, hdu⟩)
        simpa using hd

/-- Edge targets are pass indices; with in-range `DependsOn` handles,
sources are too. -/
theorem dependsEdges_range (passes : List PassEntry)
    (hrange : ∀ pe ∈ passes, ∀ d ∈ pe.dependencies, d.dependency < passes.length) :
    ∀ e ∈ dependsEdges passes, e.1 < passes.length ∧ e.2 < passes.length := by
  intro e he
  obtain ⟨j, hj, hv, d, hd, hdu⟩ := (dependsEdgesFrom_mem passes 0 e.1 e.2).mp (by
    rw [← dependsEdges]
    cases e
    exact he)
  constructor
  · rw [← hdu]
    exact hrange _ (List.get_mem passes j hj) d hd
  · omega

/-- Every declared dependency is an edge. -/
theorem dependsEdges_of_dep (passes : List PassEntry) (i : Nat) (h : i < passes.length)
    (d : Dependency) (hd : d ∈ (passes.get ⟨i, h⟩).dependencies) :
    (d.dependency, i) ∈ dependsEdges passes := by
  rw [dependsEdges]
  exact (dependsEdgesFrom_mem passes 0 d.dependency i).mpr ⟨i, h, by omega, d, hd, rfl⟩

/-- In the acyclic in-range case the sort is a permutation of the pass
range and places every edge source strictly before its target. -/
theorem topoSort_acyclic_facts (n : Nat) (E : List (Nat × Nat))
    (HE : ∀ e ∈ E, e.1 < n ∧ e.2 < n)
    (hacyc : ∀ v, ¬ Relation.TransGen (fun a b => (a, b) ∈ E) v v) :
    (topoSort n E).Perm (List.range n) ∧
    (∀ e ∈ E, List.indexOf e.1 (topoSort n E) < List.indexOf e.2 (topoSort n E)) := by
  obtain ⟨countsF, inv⟩ := topoSort_inv n E HE
  have hfull : ∀ v, v < n → v ∈ topoSort n E := by
    by_contra hcon
    push_neg at hcon
    obtain ⟨v₀, hv₀n, hv₀⟩ := hcon
    have hpred : ∀ v ∈ (Finset.range n).filter (fun v => v ∉ topoSort n E),
        ∃ u ∈ (Finset.range n).filter (fun v => v ∉ topoSort n E), (u, v) ∈ E := by
      intro v hv
      rw [Finset.mem_filter, Finset.mem_range] at hv
      have hrem : remCount E (topoSort n E) v ≠ 0 := by
        intro h0
        rcases (inv.reached v hv.1).mp h0 with h | h
        · exact hv.2 h
        · exact absurd h (List.not_mem_nil v)
      obtain ⟨e, he, hpe⟩ : ∃ e ∈ E,
          (e.2 == v && !((topoSort n E).contains e.1)) = true := by
        by_contra hall
        push_neg at hall
        exact hrem (List.countP_eq_zero.mpr hall)
      simp only [Bool.and_eq_true, beq_iff_eq, Bool.not_eq_true'] at hpe
      refine ⟨e.1, ?_, ?_⟩
      · rw [Finset.mem_filter, Finset.mem_range]
        exact ⟨(HE e he).1, (contains_false_iff _ _).mp hpe.2⟩
      · have : (e.1, v) = e := by
          rw [← hpe.1]
        rw [this]
        exact he
    have hne : ((Finset.range n).filter (fun v => v ∉ topoSort n E)).Nonempty := by
      refine ⟨v₀, ?_⟩
      rw [Finset.mem_filter, Finset.mem_range]
      exact ⟨hv₀n, hv₀⟩
    obtain ⟨v, hv⟩ := exists_cycle_of_forall_pred (fun a b => (a, b) ∈ E) _ hne hpred
    exact hacyc v hv
  have hperm : (topoSort n E).Perm (List.range n) := by
    rw [List.perm_ext_iff_of_nodup inv.order_nodup (List.nodup_range n)]
    intro a
    constructor
    · intro ha
      exact List.mem_range.mpr (inv.order_lt a ha)
    · intro ha
      exact hfull a (List.mem_range.mp ha)
  refine ⟨hperm, ?_⟩
  intro e he
  have h2mem : e.2 ∈ topoSort n E := hfull e.2 (HE e he).2
  exact indexOf_lt_of_pair_sublist inv.order_nodup (inv.sorted_inv e he h2mem)

/-- A dependency cycle leaves the sort incomplete. -/
theorem topoSort_incomplete (n : Nat) (E : List (Nat × Nat))
    (HE : ∀ e ∈ E, e.1 < n ∧ e.2 < n)
    (v : Nat) (hv : Relation.TransGen (fun a b => (a, b) ∈ E) v v) :
    (topoSort n E).length ≠ n := by
  intro hlen
  obtain ⟨countsF, inv⟩ := topoSort_inv n E HE
  have hvn : v < n := by
    cases hv with
    | single he => exact (HE _ he).2
    | tail _ he => exact (HE _ he).2
  have hvmem := nodup_lt_full (topoSort n E) n inv.order_nodup inv.order_lt hlen v hvn
  have := transGen_indexOf_lt E (topoSort n E) inv.order_nodup inv.sorted_inv hv hvmem
  exact lt_irrefl _ this.2

/-- A ranking function certifies acyclicity of a concrete edge list. -/
theorem acyclic_of_rank (E : List (Nat × Nat)) (rank : Nat → Nat)
    (h : ∀ e ∈ E, rank e.1 < rank e.2) :
    ∀ v, ¬ Relation.TransGen (fun a b => (a, b) ∈ E) v v := by
  have hmono : ∀ a b, Relation.TransGen (fun a b => (a, b) ∈ E) a b → rank a < rank b := by
    intro a b hab
    induction hab with
    | single he => exact h _ he
    | tail _ he ih => exact lt_trans ih (h _ he)
  intro v hv
  exact lt_irrefl _ (hmono v v hv)

/-- C1: for every pass set whose explicit `DependsOn` edges are in
range and form no cycle, `Compile`'s `mExecutionOrder` contains every
pass exactly once (it is a permutation of the declaration range), and
each declared dependency is placed strictly before its declaring
pass. -/
theorem compile_topological_order (passes : List PassEntry)
    (hrange : ∀ pe ∈ passes, ∀ d ∈ pe.dependencies, d.dependency < passes.length)
    (hacyclic : ∀ v, ¬ Relation.TransGen (fun a b => (a, b) ∈ dependsEdges passes) v v) :
    (compileOrder passes).Perm (List.range passes.length) ∧
    (∀ i, ∀ h : i < passes.length, ∀ d ∈ (passes.get ⟨i, h⟩).dependencies,
      List.indexOf d.dependency (compileOrder passes) <
        List.indexOf i (compileOrder passes)) := by
  have HE := dependsEdges_range passes hrange
  obtain ⟨hperm, hpos⟩ :=
    topoSort_acyclic_facts passes.length (dependsEdges passes) HE hacyclic
  have hlen : (topoSort passes.length (dependsEdges passes)).length = passes.length := by
    rw [hperm.length_eq, List.length_range]
  have hco : compileOrder passes = topoSort passes.length (dependsEdges passes) := by
    unfold compileOrder
    rw [if_pos hlen]
  rw [hco]
  refine ⟨hperm, ?_⟩
  intro i h d hd
  exact hpos (d.dependency, i) (dependsEdges_of_dep passes i h d hd)

/-- Witness for C1 at a concrete input: three passes where pass 1
depends on pass 0 and pass 2 depends on pass 1 (acyclic by the
identity ranking); the compiled order is a permutation of 0,1,2 with
each dependency placed first. -/
theorem compile_topological_order_witness :
    ((∀ pe ∈ ([⟨[], [], []⟩, ⟨[], [], [⟨0, 0⟩]⟩, ⟨[], [], [⟨1, 0⟩]⟩] : List PassEntry),
        ∀ d ∈ pe.dependencies, d.dependency < 3) ∧
     (∀ e ∈ dependsEdges [⟨[], [], []⟩, ⟨[], [], [⟨0, 0⟩]⟩, ⟨[], [], [⟨1, 0⟩]⟩],
        e.1 < e.2)) ∧
    ((compileOrder [⟨[], [], []⟩, ⟨[], [], [⟨0, 0⟩]⟩, ⟨[], [], [⟨1, 0⟩]⟩]).Perm
        (List.range 3) ∧
     List.indexOf 0 (compileOrder [⟨[], [], []⟩, ⟨[], [], [⟨0, 0⟩]⟩, ⟨[], [], [⟨1, 0⟩]⟩])
       < List.indexOf 1 (compileOrder [⟨[], [], []⟩, ⟨[], [], [⟨0, 0⟩]⟩, ⟨[], [], [⟨1, 0⟩]⟩]) ∧
     List.indexOf 1 (compileOrder [⟨[], [], []⟩, ⟨[], [], [⟨0, 0⟩]⟩, ⟨[], [], [⟨1, 0⟩]⟩])
       < List.indexOf 2 (compileOrder [⟨[], [], []⟩, ⟨[], [], [⟨0, 0⟩]⟩, ⟨[], [], [⟨1, 0⟩]⟩])) := by
  have hthm := compile_topological_order
    [⟨[], [], []⟩, ⟨[], [], [⟨0, 0⟩]⟩, ⟨[], [], [⟨1, 0⟩]⟩]
    (by decide)
    (acyclic_of_rank _ (fun v => v) (by decide))
  refine ⟨⟨by decide, by decide⟩, hthm.1, ?_, ?_⟩
  · exact hthm.2 1 (by decide) ⟨0, 0⟩ (by decide)
  · exact hthm.2 2 (by decide) ⟨1, 0⟩ (by decide)

/-- C3: for every pass set with in-range `DependsOn` edges containing a
dependency cycle, `Compile` falls back to declaration order: the
execution order is exactly `0, 1, ..., passCount - 1`, whose size is
the pass count (the call completes normally — the model is a total
function). -/
theorem compile_cycle_fallback (passes : List PassEntry)
    (hrange : ∀ pe ∈ passes, ∀ d ∈ pe.dependencies, d.dependency < passes.length)
    (hcycle : ∃ v, Relation.TransGen (fun a b => (a, b) ∈ dependsEdges passes) v v) :
    compileOrder passes = List.range passes.length ∧
    (compileOrder passes).length = passes.length := by
  have HE := dependsEdges_range passes hrange
  obtain ⟨v, hv⟩ := hcycle
  have hne := topoSort_incomplete passes.length (dependsEdges passes) HE v hv
  have hco : compileOrder passes = List.range passes.length := by
    unfold compileOrder
    rw [if_neg hne]
  exact ⟨hco, by rw [hco]; simp⟩

/-- Witness for C3 at a concrete input: two passes that depend on each
other; the order falls back to [0, 1]. -/
theorem compile_cycle_fallback_witness :
    ((∀ pe ∈ ([⟨[], [], [⟨1, 0⟩]⟩, ⟨[], [], [⟨0, 0⟩]⟩] : List PassEntry),
        ∀ d ∈ pe.dependencies, d.dependency < 2) ∧
     (0, 1) ∈ dependsEdges [⟨[], [], [⟨1, 0⟩]⟩, ⟨[], [], [⟨0, 0⟩]⟩] ∧
     (1, 0) ∈ dependsEdges [⟨[], [], [⟨1, 0⟩]⟩, ⟨[], [], [⟨0, 0⟩]⟩]) ∧
    (compileOrder [⟨[], [], [⟨1, 0⟩]⟩, ⟨[], [], [⟨0, 0⟩]⟩] = List.range 2 ∧
     (compileOrder [⟨[], [], [⟨1, 0⟩]⟩, ⟨[], [], [⟨0, 0⟩]⟩]).length = 2) := by
  have h01 : ((0 : Nat), (1 : Nat)) ∈
      dependsEdges [⟨[], [], [⟨1, 0⟩]⟩, ⟨[], [], [⟨0, 0⟩]⟩] := by decide
  have h10 : ((1 : Nat), (0 : Nat)) ∈
      dependsEdges [⟨[], [], [⟨1, 0⟩]⟩, ⟨[], [], [⟨0, 0⟩]⟩] := by decide
  refine ⟨⟨by decide, h01, h10⟩, ?_⟩
  exact compile_cycle_fallback [⟨[], [], [⟨1, 0⟩]⟩, ⟨[], [], [⟨0, 0⟩]⟩]
    (by decide)
    ⟨0, Relation.TransGen.tail (Relation.TransGen.single h01) h10⟩

/-- `mExecutionOrder` always contains every pass index: via the sort
when it completes, via the declaration-order fallback otherwise. -/
theorem compileOrder_complete (passes : List PassEntry)
    (hrange : ∀ pe ∈ passes, ∀ d ∈ pe.dependencies, d.dependency < passes.length) :
    ∀ i, i < passes.length → i ∈ compileOrder passes := by
  have HE := dependsEdges_range passes hrange
  by_cases hcyc : ∃ v, Relation.TransGen
      (fun a b => (a, b) ∈ dependsEdges passes) v v
  · obtain ⟨v, hv⟩ := hcyc
    have hne := topoSort_incomplete passes.length (dependsEdges passes) HE v hv
    unfold compileOrder
    rw [if_neg hne]
    intro i hi
    exact List.mem_range.mpr hi
  · push_neg at hcyc
    obtain ⟨hperm, _⟩ :=
      topoSort_acyclic_facts passes.length (dependsEdges passes) HE hcyc
    have hlen : (topoSort passes.length (dependsEdges passes)).length = passes.length := by
      rw [hperm.length_eq, List.length_range]
    unfold compileOrder
    rw [if_pos hlen]
    intro i hi
    exact hperm.mem_iff.mpr (List.mem_range.mpr hi)

/-- C9: when the cache can satisfy no allocation (empty pool, failing
allocator), `Compile` still completes and marks the graph compiled,
every transient resource node keeps its null image/view handles, and
`Execute` proceeds to run every pass — one `runPass` per execution-
order slot, covering every pass index. -/
theorem compile_alloc_failure_degrades (g : RenderGraph) (c : ImageCache)
    (hc : g.imageCache = some c) (hce : c.entries = []) (hca : c.canAlloc = false)
    (hrange : ∀ pe ∈ g.passes, ∀ d ∈ pe.dependencies, d.dependency < g.passes.length)
    (hnull : ∀ r ∈ g.resources, r.isTransient = true → r.image = none ∧ r.view = none) :
    ∃ g' calls, g.compile = some (g', calls) ∧ g'.compiled = true ∧
      (∀ r ∈ g'.resources, r.isTransient = true → r.image = none ∧ r.view = none) ∧
      ((g'.execute).2.filterMap runPassIdx = g'.executionOrder) ∧
      (∀ i, i < g.passes.length → GpuCmd.runPass i ∈ (g'.execute).2) := by
  obtain ⟨ha1, ha2, ha3⟩ := allocLoop_all_fail g.frameNumber 0
    (computeLifetimes g.resources g.passes (compileOrder g.passes)) c hce hca
  have hcompile : g.compile = some
      ({g with
        resources := computeLifetimes g.resources g.passes (compileOrder g.passes)
        imageCache := some c
        executionOrder := compileOrder g.passes
        transientRefs := g.transientRefs
        compiled := true},
       (allocLoop g.frameNumber 0
         (computeLifetimes g.resources g.passes (compileOrder g.passes)) c).calls) := by
    unfold RenderGraph.compile
    rw [hc]
    simp only []
    rw [ha1, ha2, ha3]
    simp
  refine ⟨_, _, hcompile, rfl, ?_, ?_, ?_⟩
  · -- transient nodes keep their null handles through ComputeLifetimes
    intro r hr htr
    have hmap := computeLifetimes_map_eq (fun r => (r.image, r.view, r.isTransient))
      (fun r a b => rfl) g.resources g.passes (compileOrder g.passes)
    have hin : (r.image, r.view, r.isTransient) ∈
        (computeLifetimes g.resources g.passes (compileOrder g.passes)).map
          (fun r => (r.image, r.view, r.isTransient)) :=
      List.mem_map_of_mem _ hr
    rw [hmap] at hin
    obtain ⟨y, hy, hyr⟩ := List.mem_map.mp hin
    have h1 : y.image = r.image := congrArg (fun t => t.1) hyr
    have h2 : y.view = r.view := congrArg (fun t => t.2.1) hyr
    have h3 : y.isTransient = r.isTransient := congrArg (fun t => t.2.2) hyr
    have := hnull y hy (by rw [h3, htr])
    rw [← h1, ← h2]
    exact this
  · exact execute_records_all _ rfl
  · intro i hi
    have hmem : i ∈ compileOrder g.passes := compileOrder_complete g.passes hrange i hi
    have hruns := execute_records_all
      ({g with
        resources := computeLifetimes g.resources g.passes (compileOrder g.passes)
        imageCache := some c
        executionOrder := compileOrder g.passes
        transientRefs := g.transientRefs
        compiled := true}) rfl
    rw [show ({g with
        resources := computeLifetimes g.resources g.passes (compileOrder g.passes)
        imageCache := some c
        executionOrder := compileOrder g.passes
        transientRefs := g.transientRefs
        compiled := true} : RenderGraph).executionOrder = compileOrder g.passes from rfl]
      at hruns
    rw [← hruns] at hmem
    obtain ⟨cmd, hcmd, hcmdi⟩ := List.mem_filterMap.mp hmem
    cases cmd with
    | pipelineBarrier imgs bufs => simp [runPassIdx] at hcmdi
    | runPass j =>
      have : j = i := by simpa [runPassIdx] using hcmdi
      rw [← this]
      exact hcmd

/-- Witness for C9: a graph whose cache is empty and cannot allocate,
with one transient resource read by one pass. -/
theorem compile_alloc_failure_degrades_witness :
    (((RenderGraph.mk (some (ImageCache.mk [] 0 false)) 0 []
        [⟨[⟨0, 2, 8, 32⟩], [], []⟩] [] (BarrierBatcher.reset 0) false
        []).createImage ⟨37, 4, 4, 0, 1, 1⟩).2.imageCache
        = some (ImageCache.mk [] 0 false)) ∧
    (∃ g' calls, ((RenderGraph.mk (some (ImageCache.mk [] 0 false)) 0 []
        [⟨[⟨0, 2, 8, 32⟩], [], []⟩] [] (BarrierBatcher.reset 0) false
        []).createImage ⟨37, 4, 4, 0, 1, 1⟩).2.compile = some (g', calls) ∧
      g'.compiled = true ∧
      (∀ r ∈ g'.resources, r.isTransient = true → r.image = none ∧ r.view = none) ∧
      ((g'.execute).2.filterMap runPassIdx = g'.executionOrder) ∧
      (∀ i, i < ((RenderGraph.mk (some (ImageCache.mk [] 0 false)) 0 []
          [⟨[⟨0, 2, 8, 32⟩], [], []⟩] [] (BarrierBatcher.reset 0) false
          []).createImage ⟨37, 4, 4, 0, 1, 1⟩).2.passes.length →
        GpuCmd.runPass i ∈ (g'.execute).2)) := by
  refine ⟨by decide, ?_⟩
  exact compile_alloc_failure_degrades
    (((RenderGraph.mk (some (ImageCache.mk [] 0 false)) 0 []
      [⟨[⟨0, 2, 8, 32⟩], [], []⟩] [] (BarrierBatcher.reset 0) false
      []).createImage ⟨37, 4, 4, 0, 1, 1⟩).2)
    (ImageCache.mk [] 0 false)
    (by decide) (by decide) (by decide) (by decide) (by decide)

end VulkanRG
